import Mathlib

/-!
Verification of the caching and rate-limit-aware fetch layer of the
GitHub repository analyzer (Next.js application).

The development shallowly embeds:
* the in-memory TTL cache `ApiCache` (app/lib/cache.ts),
* the resource fetchers of app/lib/github.ts (`getRepoDetails`,
  `getContributors`, `getCommitActivity` and its alternative bucketing,
  `getRepoContents`, `buildFileTree`, `getFileContent`, `getRateLimit`),
* the pure helpers `shouldSkipPath`, `handleApiError`, `calculateMetrics`.

JavaScript `Map` objects are modelled as association lists in insertion
order with unique keys (`Map.set` on a present key updates the value in
place, otherwise appends).  Wall-clock time (`Date.now()`, milliseconds)
is threaded explicitly, and asynchronous network calls are replaced by
explicit oracles describing the outcome of each attempt.
-/

namespace GitTool

/-! ### Association-list model of JavaScript `Map` -/

variable {κ : Type} [DecidableEq κ] {β : Type}

/-- `Map.get`-style lookup: the value stored at `k`, if present. -/
def mapLookup (k : κ) : List (κ × β) → Option β
  | [] => none
  | (k', v) :: rest => if k' = k then some v else mapLookup k rest

/-- `Map.set`: replace in place when the key is present (JavaScript keeps the
original insertion position), otherwise append at the end. -/
def mapSet (l : List (κ × β)) (k : κ) (v : β) : List (κ × β) :=
  match l with
  | [] => [(k, v)]
  | (k', v') :: rest => if k' = k then (k, v) :: rest else (k', v') :: mapSet rest k v

/-- `Map.delete`: remove the entry with key `k`, if any. -/
def mapDelete (l : List (κ × β)) (k : κ) : List (κ × β) :=
  match l with
  | [] => []
  | (k', v') :: rest => if k' = k then rest else (k', v') :: mapDelete rest k

theorem mapLookup_eq_none_of_not_mem {k : κ} {l : List (κ × β)}
    (h : k ∉ l.map Prod.fst) : mapLookup k l = none := by
  induction l with
  | nil => rfl
  | cons p rest ih =>
    simp only [List.map_cons, List.mem_cons] at h
    push_neg at h
    simp only [mapLookup]
    rw [if_neg (fun hc => h.1 hc.symm), ih h.2]

theorem length_mapSet (l : List (κ × β)) (k : κ) (v : β) :
    (mapSet l k v).length = if k ∈ l.map Prod.fst then l.length else l.length + 1 := by
  induction l with
  | nil => simp [mapSet]
  | cons p rest ih =>
    by_cases h : p.1 = k
    · simp [mapSet, h]
    · simp only [mapSet, if_neg h, List.length_cons, ih, List.map_cons, List.mem_cons]
      have hne : ¬ (k = p.1) := fun hc => h hc.symm
      by_cases hk : k ∈ rest.map Prod.fst <;> simp [hk, hne]

theorem length_mapDelete_le (l : List (κ × β)) (k : κ) :
    (mapDelete l k).length ≤ l.length := by
  induction l with
  | nil => simp [mapDelete]
  | cons p rest ih =>
    by_cases h : p.1 = k
    · simp only [mapDelete, if_pos h, List.length_cons]; omega
    · simp only [mapDelete, if_neg h, List.length_cons]; omega

theorem length_mapDelete_of_mem {l : List (κ × β)} {k : κ}
    (h : k ∈ l.map Prod.fst) : (mapDelete l k).length = l.length - 1 := by
  induction l with
  | nil => simp at h
  | cons p rest ih =>
    by_cases hk : p.1 = k
    · simp [mapDelete, hk]
    · simp only [List.map_cons, List.mem_cons] at h
      rcases h with h | h
      · exact absurd h.symm hk
      · simp only [mapDelete, if_neg hk, List.length_cons, ih h]
        have : 1 ≤ rest.length := by
          cases rest with
          | nil => simp at h
          | cons q t => simp
        omega

/-! ### The TTL cache (`ApiCache`, app/lib/cache.ts)

`CacheEntry<T> { data, timestamp, expiresAt }` and
`ApiCache { cache : Map<string, CacheEntry<any>>, options : { ttl, maxSize } }`.
Times are in milliseconds.  The value type is a parameter `α` (the source
stores `any`). -/

structure CacheEntry (α : Type) where
  data : α
  timestamp : Nat
  expiresAt : Nat
deriving DecidableEq

structure ApiCache (α : Type) where
  cache : List (String × CacheEntry α)
  ttl : Nat
  maxSize : Nat
deriving DecidableEq

/-- `DEFAULT_OPTIONS.ttl`: 5 minutes in milliseconds. -/
def DEFAULT_TTL : Nat := 5 * 60 * 1000

/-- `DEFAULT_OPTIONS.maxSize`: 100 entries. -/
def DEFAULT_MAX_SIZE : Nat := 100

/-- `new ApiCache(options)` with an empty map. -/
def ApiCache.mkEmpty (α : Type) (ttl maxSize : Nat) : ApiCache α :=
  ⟨[], ttl, maxSize⟩

variable {α : Type}

/-- `ApiCache.get`: return the cached data, deleting (and missing) an entry
whose `expiresAt` lies strictly in the past.  Returns the result together
with the updated cache state. -/
def ApiCache.get (c : ApiCache α) (key : String) (now : Nat) : Option α × ApiCache α :=
  match mapLookup key c.cache with
  | none => (none, c)
  | some entry =>
    if now > entry.expiresAt then
      (none, { c with cache := mapDelete c.cache key })
    else
      (some entry.data, c)

/-- `ApiCache.has`: like `get` but only reports presence of a valid entry. -/
def ApiCache.has (c : ApiCache α) (key : String) (now : Nat) : Bool × ApiCache α :=
  match mapLookup key c.cache with
  | none => (false, c)
  | some entry =>
    if now > entry.expiresAt then
      (false, { c with cache := mapDelete c.cache key })
    else
      (true, c)

/-- `Math.ceil(maxSize * 0.2)`.  For the integer sizes the source can use
the double-precision product rounds to `maxSize / 5`, so the ceiling is
`⌈maxSize / 5⌉`. -/
def cleanupRemoveCount (maxSize : Nat) : Nat := (maxSize + 4) / 5

/-- `ApiCache.cleanup`: first delete every expired entry; if the map is
still at or above `maxSize`, sort the entries by `timestamp` ascending
(`Array.prototype.sort` is stable, hence `List.mergeSort`) and delete the
first `Math.ceil(maxSize * 0.2)` of them. -/
def ApiCache.cleanup (c : ApiCache α) (now : Nat) : ApiCache α :=
  let afterExpired := c.cache.filter (fun p => !(decide (now > p.2.expiresAt)))
  if afterExpired.length ≥ c.maxSize then
    let sortedEntries := afterExpired.mergeSort
      (fun a b => decide (a.2.timestamp ≤ b.2.timestamp))
    let removedKeys := (sortedEntries.take (cleanupRemoveCount c.maxSize)).map Prod.fst
    { c with cache := removedKeys.foldl (fun acc k => mapDelete acc k) afterExpired }
  else
    { c with cache := afterExpired }

/-- The effective ttl of `ApiCache.set`: the source computes
`ttl || this.options.ttl`, and a `0` millisecond ttl is falsy in
JavaScript, so it also falls back to the default. -/
def ApiCache.resolveTtl (c : ApiCache α) (ttl : Option Nat) : Nat :=
  match ttl with
  | some t => if t = 0 then c.ttl else t
  | none => c.ttl

/-- `ApiCache.set`: when the map holds at least `maxSize` entries, run
`cleanup` first, then store the entry (insertion keeps the original map
position when the key is already present). -/
def ApiCache.set (c : ApiCache α) (key : String) (data : α) (ttl : Option Nat)
    (now : Nat) : ApiCache α :=
  let expiresAt := now + c.resolveTtl ttl
  let c1 := if c.cache.length ≥ c.maxSize then c.cleanup now else c
  { c1 with cache := mapSet c1.cache key ⟨data, now, expiresAt⟩ }

/-- `ApiCache.delete`. -/
def ApiCache.deleteKey (c : ApiCache α) (key : String) : ApiCache α :=
  { c with cache := mapDelete c.cache key }

/-- `ApiCache.clear`. -/
def ApiCache.clear (c : ApiCache α) : ApiCache α :=
  { c with cache := [] }

/-! ### Sequences of cache operations -/

/-- One public cache operation, tagged with the `Date.now()` instant at
which it runs. -/
inductive CacheOp (α : Type) where
  | get (key : String)
  | set (key : String) (data : α) (ttl : Option Nat)
  | has (key : String)
  | deleteKey (key : String)
  | clear

/-- Apply one operation to the cache state at time `now`. -/
def applyOp (c : ApiCache α) (op : CacheOp α) (now : Nat) : ApiCache α :=
  match op with
  | .get key => (c.get key now).2
  | .set key data ttl => c.set key data ttl now
  | .has key => (c.has key now).2
  | .deleteKey key => c.deleteKey key
  | .clear => c.clear

/-- Apply a timed sequence of operations from left to right. -/
def applyOps (c : ApiCache α) (ops : List (CacheOp α × Nat)) : ApiCache α :=
  ops.foldl (fun acc p => applyOp acc p.1 p.2) c

/-! ### Size bounds for the cache -/

theorem length_foldl_mapDelete_le (ks : List String) (l : List (String × CacheEntry α)) :
    (ks.foldl (fun acc k => mapDelete acc k) l).length ≤ l.length := by
  induction ks generalizing l with
  | nil => simp
  | cons k rest ih =>
    simp only [List.foldl_cons]
    exact le_trans (ih (mapDelete l k)) (length_mapDelete_le l k)

theorem cleanup_maxSize (c : ApiCache α) (now : Nat) :
    (c.cleanup now).maxSize = c.maxSize := by
  unfold ApiCache.cleanup
  by_cases h : (c.cache.filter (fun p => !(decide (now > p.2.expiresAt)))).length ≥ c.maxSize <;>
    simp [h]

theorem cleanup_length (c : ApiCache α) (now : Nat)
    (h1 : c.cache.length ≤ c.maxSize) (h2 : 1 ≤ c.maxSize) :
    (c.cleanup now).cache.length < c.maxSize := by
  unfold ApiCache.cleanup
  set afterExpired := c.cache.filter (fun p => !(decide (now > p.2.expiresAt))) with hae
  have hle : afterExpired.length ≤ c.cache.length := List.length_filter_le _ _
  by_cases h : afterExpired.length ≥ c.maxSize
  · simp only [h, if_true]
    have heq : afterExpired.length = c.maxSize := le_antisymm (le_trans hle h1) h
    set sortedEntries := afterExpired.mergeSort
      (fun a b => decide (a.2.timestamp ≤ b.2.timestamp)) with hse
    have hslen : sortedEntries.length = afterExpired.length := by
      rw [hse]
      exact List.length_mergeSort afterExpired
    have hsne : sortedEntries ≠ [] := by
      intro hnil
      rw [hnil] at hslen
      simp at hslen
      omega
    obtain ⟨p, tail, hcons⟩ := List.exists_cons_of_ne_nil hsne
    have hrc : 1 ≤ cleanupRemoveCount c.maxSize := by
      unfold cleanupRemoveCount
      omega
    obtain ⟨r, hr⟩ := Nat.exists_eq_add_of_le hrc
    have htake : sortedEntries.take (cleanupRemoveCount c.maxSize) = p :: tail.take r := by
      rw [hcons, hr]
      simp [List.take_succ_cons, Nat.add_comm]
    have hmem : p.1 ∈ afterExpired.map Prod.fst := by
      apply List.mem_map_of_mem
      have : p ∈ sortedEntries := by rw [hcons]; exact List.mem_cons_self _ _
      rwa [hse, List.mem_mergeSort] at this
    calc ((sortedEntries.take (cleanupRemoveCount c.maxSize)).map Prod.fst
            |>.foldl (fun acc k => mapDelete acc k) afterExpired).length
        ≤ (mapDelete afterExpired p.1).length := by
          rw [htake]
          simp only [List.map_cons, List.foldl_cons]
          exact length_foldl_mapDelete_le _ _
      _ = afterExpired.length - 1 := length_mapDelete_of_mem hmem
      _ < c.maxSize := by omega
  · simp only [h, if_false]
    omega

theorem set_length (c : ApiCache α) (key : String) (data : α) (ttl : Option Nat)
    (now : Nat) (h1 : c.cache.length ≤ c.maxSize) (h2 : 1 ≤ c.maxSize) :
    (c.set key data ttl now).cache.length ≤ c.maxSize := by
  unfold ApiCache.set
  by_cases h : c.cache.length ≥ c.maxSize
  · simp only [h, if_true]
    have := cleanup_length c now h1 h2
    rw [length_mapSet]
    by_cases hk : key ∈ (c.cleanup now).cache.map Prod.fst <;> simp [hk] <;> omega
  · simp only [h, if_false]
    rw [length_mapSet]
    by_cases hk : key ∈ c.cache.map Prod.fst <;> simp [hk] <;> omega

theorem applyOp_maxSize (c : ApiCache α) (op : CacheOp α) (now : Nat) :
    (applyOp c op now).maxSize = c.maxSize := by
  cases op with
  | get key =>
    simp only [applyOp, ApiCache.get]
    cases mapLookup key c.cache with
    | none => rfl
    | some entry =>
      by_cases h : now > entry.expiresAt <;> simp [h]
  | set key data ttl =>
    simp only [applyOp, ApiCache.set]
    by_cases h : c.cache.length ≥ c.maxSize <;> simp [h, cleanup_maxSize]
  | has key =>
    simp only [applyOp, ApiCache.has]
    cases mapLookup key c.cache with
    | none => rfl
    | some entry =>
      by_cases h : now > entry.expiresAt <;> simp [h]
  | deleteKey key => rfl
  | clear => rfl

theorem applyOp_length (c : ApiCache α) (op : CacheOp α) (now : Nat)
    (h1 : c.cache.length ≤ c.maxSize) (h2 : 1 ≤ c.maxSize) :
    (applyOp c op now).cache.length ≤ c.maxSize := by
  cases op with
  | get key =>
    simp only [applyOp, ApiCache.get]
    cases hk : mapLookup key c.cache with
    | none => simpa using h1
    | some entry =>
      by_cases h : now > entry.expiresAt
      · simp only [h, if_true]
        exact le_trans (length_mapDelete_le _ _) h1
      · simpa [h] using h1
  | set key data ttl => exact set_length c key data ttl now h1 h2
  | has key =>
    simp only [applyOp, ApiCache.has]
    cases hk : mapLookup key c.cache with
    | none => simpa using h1
    | some entry =>
      by_cases h : now > entry.expiresAt
      · simp only [h, if_true]
        exact le_trans (length_mapDelete_le _ _) h1
      · simpa [h] using h1
  | deleteKey key => exact le_trans (length_mapDelete_le _ _) h1
  | clear => simp [applyOp, ApiCache.clear]

theorem applyOps_length (c : ApiCache α) (ops : List (CacheOp α × Nat))
    (h1 : c.cache.length ≤ c.maxSize) (h2 : 1 ≤ c.maxSize) :
    (applyOps c ops).cache.length ≤ (applyOps c ops).maxSize ∧
      (applyOps c ops).maxSize = c.maxSize := by
  induction ops generalizing c with
  | nil => exact ⟨h1, rfl⟩
  | cons p rest ih =>
    simp only [applyOps, List.foldl_cons] at *
    have hm := applyOp_maxSize c p.1 p.2
    have hl := applyOp_length c p.1 p.2 h1 h2
    have := ih (applyOp c p.1 p.2) (by rw [hm]; exact hl) (by rw [hm]; exact h2)
    exact ⟨this.1, this.2.trans hm⟩

/-! ### Which entries survive a cleanup at capacity -/

theorem mapDelete_map_fst (l : List (String × CacheEntry α)) (k : String) :
    (mapDelete l k).map Prod.fst = (l.map Prod.fst).erase k := by
  induction l with
  | nil => rfl
  | cons p rest ih =>
    by_cases h : p.1 = k
    · simp [mapDelete, h, List.erase_cons]
    · simp [mapDelete, h, List.erase_cons, ih]

theorem keys_foldl_mapDelete (ks : List String) (l : List (String × CacheEntry α)) :
    (ks.foldl (fun acc k => mapDelete acc k) l).map Prod.fst =
      ks.foldl (fun acc k => acc.erase k) (l.map Prod.fst) := by
  induction ks generalizing l with
  | nil => rfl
  | cons k rest ih =>
    simp only [List.foldl_cons]
    rw [ih, mapDelete_map_fst]

theorem mem_foldl_erase {x : String} (ks : List String) (L : List String)
    (hnd : L.Nodup) : x ∈ ks.foldl (fun acc k => acc.erase k) L ↔ x ∈ L ∧ x ∉ ks := by
  induction ks generalizing L with
  | nil => simp
  | cons k rest ih =>
    simp only [List.foldl_cons, List.mem_cons]
    rw [ih (L.erase k) (hnd.erase k), hnd.mem_erase_iff]
    constructor
    · rintro ⟨⟨hne, hx⟩, hr⟩
      exact ⟨hx, by rintro (rfl | h) <;> [exact hne rfl; exact hr h]⟩
    · rintro ⟨hx, hnk⟩
      push_neg at hnk
      exact ⟨⟨hnk.1, hx⟩, hnk.2⟩

theorem nodup_keys_inj {κ : Type} [DecidableEq κ] {β : Type} {l : List (κ × β)}
    (hnd : (l.map Prod.fst).Nodup) :
    ∀ p ∈ l, ∀ q ∈ l, p.1 = q.1 → p = q := by
  induction l with
  | nil => simp
  | cons a rest ih =>
    simp only [List.map_cons, List.nodup_cons] at hnd
    intro p hp q hq hpq
    rcases List.mem_cons.mp hp with hpa | hp
    · rcases List.mem_cons.mp hq with hqa | hq
      · rw [hpa, hqa]
      · exfalso
        apply hnd.1
        rw [← hpa, hpq]
        exact List.mem_map_of_mem Prod.fst hq
    · rcases List.mem_cons.mp hq with hqa | hq
      · exfalso
        apply hnd.1
        rw [← hqa, ← hpq]
        exact List.mem_map_of_mem Prod.fst hp
      · exact ih hnd.2 p hp q hq hpq

/-- When the cache is at capacity, none of its entries is expired, and all
`storedAt` timestamps are distinct, `cleanup` keeps exactly the entries
that have at least `⌈maxSize × 0.2⌉` strictly older entries — i.e. it
evicts precisely the `⌈maxSize × 0.2⌉` oldest entries. -/
theorem cleanup_evicts_oldest (c : ApiCache α) (now : Nat)
    (hnd : (c.cache.map Prod.fst).Nodup)
    (hexp : ∀ p ∈ c.cache, ¬ now > p.2.expiresAt)
    (hfull : c.maxSize ≤ c.cache.length)
    (hts : (c.cache.map (fun p => p.2.timestamp)).Nodup) :
    ∀ p ∈ c.cache,
      (p.1 ∈ (c.cleanup now).cache.map Prod.fst ↔
        cleanupRemoveCount c.maxSize ≤
          (c.cache.filter (fun q => decide (q.2.timestamp < p.2.timestamp))).length) := by
  intro p hp
  have hfe : c.cache.filter (fun p => !(decide (now > p.2.expiresAt))) = c.cache := by
    apply List.filter_eq_self.mpr
    intro a ha
    simpa using hexp a ha
  unfold ApiCache.cleanup
  rw [hfe]
  rw [if_pos hfull]
  set le := fun (a b : String × CacheEntry α) => decide (a.2.timestamp ≤ b.2.timestamp)
    with hle
  set sorted := c.cache.mergeSort le with hsorted
  have hperm : List.Perm sorted c.cache := List.mergeSort_perm c.cache le
  have hsnd : sorted.Nodup := hperm.nodup_iff.mpr (hts.of_map _)
  have hsts : (sorted.map (fun p => p.2.timestamp)).Nodup :=
    (hperm.map (fun p => p.2.timestamp)).nodup_iff.mpr hts
  have hsortedle : sorted.Pairwise (fun a b => a.2.timestamp ≤ b.2.timestamp) := by
    have hp0 : sorted.Pairwise (fun a b => le a b) := by
      rw [hsorted]
      exact List.sorted_mergeSort
        (fun a b c hab hbc => by
          simp only [hle, decide_eq_true_eq] at *
          omega)
        (fun a b => by
          simp only [hle]
          by_cases h : a.2.timestamp ≤ b.2.timestamp
          · simp [h]
          · simp [h]; omega)
        c.cache
    exact hp0.imp (by intro a b h; simpa [hle] using h)
  have hsortedlt : sorted.Pairwise (fun a b => a.2.timestamp < b.2.timestamp) := by
    have hne : sorted.Pairwise (fun a b => a.2.timestamp ≠ b.2.timestamp) :=
      List.pairwise_map.mp hsts
    exact (hsortedle.and hne).imp (fun h => lt_of_le_of_ne h.1 h.2)
  -- locate p inside the sorted list
  have hpsorted : p ∈ sorted := hperm.mem_iff.mpr hp
  obtain ⟨l1, l2, hsplit⟩ := List.append_of_mem hpsorted
  have hrank : (c.cache.filter (fun q => decide (q.2.timestamp < p.2.timestamp))).length
      = l1.length := by
    have hpermf := (hperm.filter (fun q => decide (q.2.timestamp < p.2.timestamp))).length_eq
    rw [← hpermf, hsplit]
    rw [List.filter_append]
    have h1 : l1.filter (fun q => decide (q.2.timestamp < p.2.timestamp)) = l1 := by
      apply List.filter_eq_self.mpr
      intro a ha
      have := (List.pairwise_append.mp (hsplit ▸ hsortedlt)).2.2 a ha p (List.mem_cons_self _ _)
      simpa using this
    have h2 : (p :: l2).filter (fun q => decide (q.2.timestamp < p.2.timestamp)) = [] := by
      apply List.filter_eq_nil_iff.mpr
      intro a ha
      rcases List.mem_cons.mp ha with rfl | ha
      · simp
      · have hpl2 := List.pairwise_cons.mp
          (List.pairwise_append.mp (hsplit ▸ hsortedlt)).2.1
        have := hpl2.1 a ha
        simp only [decide_eq_true_eq]
        omega
    rw [h1, h2, List.append_nil]
  -- membership in the kept part
  set rc := cleanupRemoveCount c.maxSize with hrc
  have hkeys : ((((sorted.take rc).map Prod.fst).foldl
        (fun acc k => mapDelete acc k) c.cache).map Prod.fst) =
      ((sorted.take rc).map Prod.fst).foldl (fun acc k => acc.erase k)
        (c.cache.map Prod.fst) := keys_foldl_mapDelete _ _
  rw [hkeys, mem_foldl_erase _ _ hnd]
  have hmemkeys : p.1 ∈ c.cache.map Prod.fst := List.mem_map_of_mem Prod.fst hp
  have hptake : p.1 ∈ (sorted.take rc).map Prod.fst ↔ p ∈ sorted.take rc := by
    constructor
    · intro h
      obtain ⟨q, hq, hq1⟩ := List.mem_map.mp h
      have hqc : q ∈ c.cache := hperm.mem_iff.mp (List.mem_of_mem_take hq)
      have : q = p := nodup_keys_inj hnd q hqc p hp hq1
      rwa [this] at hq
    · intro h
      exact List.mem_map_of_mem Prod.fst h
  have hnotl1 : p ∉ l1 ∧ p ∉ l2 := by
    obtain ⟨h1, h2, hdisj⟩ := List.nodup_append.mp (hsplit ▸ hsnd)
    refine ⟨fun hmem => ?_, (List.nodup_cons.mp h2).1⟩
    exact hdisj hmem (List.mem_cons_self _ _)
  have hinx : p ∈ sorted.take rc ↔ l1.length < rc := by
    constructor
    · intro h
      by_contra hlt
      push_neg at hlt
      have : sorted.take rc = l1.take rc := by
        rw [hsplit, List.take_append_of_le_length hlt]
      rw [this] at h
      exact hnotl1.1 (List.mem_of_mem_take h)
    · intro h
      rw [hsplit]
      rw [List.take_append_eq_append_take]
      apply List.mem_append.mpr
      right
      have : rc - l1.length ≥ 1 := by omega
      obtain ⟨m, hm⟩ := Nat.exists_eq_add_of_le this
      rw [show rc - l1.length = 1 + m from hm]
      simp [List.take_succ_cons, Nat.add_comm 1 m]
  constructor
  · rintro ⟨-, hnm⟩
    rw [hptake] at hnm
    rw [hinx] at hnm
    omega
  · intro hge
    refine ⟨hmemkeys, ?_⟩
    rw [hptake, hinx]
    omega

/-! ### Lookup / insertion / deletion interaction lemmas -/

theorem mapLookup_mapSet {κ : Type} [DecidableEq κ] {β : Type}
    (l : List (κ × β)) (k : κ) (v : β) :
    mapLookup k (mapSet l k v) = some v := by
  induction l with
  | nil => simp [mapSet, mapLookup]
  | cons p rest ih =>
    by_cases h : p.1 = k
    · simp [mapSet, h, mapLookup]
    · simp [mapSet, h, mapLookup, ih]

theorem mapDelete_sublist (l : List (String × CacheEntry α)) (k : String) :
    List.Sublist (mapDelete l k) l := by
  induction l with
  | nil => simp [mapDelete]
  | cons p rest ih =>
    by_cases h : p.1 = k
    · simp only [mapDelete, if_pos h]
      exact List.sublist_cons_self _ _
    · simp only [mapDelete, if_neg h]
      exact ih.cons₂ p

theorem foldl_mapDelete_sublist (ks : List String) (l : List (String × CacheEntry α)) :
    List.Sublist (ks.foldl (fun acc k => mapDelete acc k) l) l := by
  induction ks generalizing l with
  | nil => simp
  | cons k rest ih =>
    simp only [List.foldl_cons]
    exact (ih (mapDelete l k)).trans (mapDelete_sublist l k)

theorem cleanup_cache_sublist (c : ApiCache α) (now : Nat) :
    List.Sublist (c.cleanup now).cache c.cache := by
  unfold ApiCache.cleanup
  by_cases h : (c.cache.filter (fun p => !(decide (now > p.2.expiresAt)))).length ≥ c.maxSize
  · simp only [h, if_true]
    exact (foldl_mapDelete_sublist _ _).trans (List.filter_sublist _)
  · simp only [h, if_false]
    exact List.filter_sublist _

theorem keys_mapSet {κ : Type} [DecidableEq κ] {β : Type}
    (l : List (κ × β)) (k : κ) (v : β) :
    (mapSet l k v).map Prod.fst =
      if k ∈ l.map Prod.fst then l.map Prod.fst else l.map Prod.fst ++ [k] := by
  induction l with
  | nil => simp [mapSet]
  | cons p rest ih =>
    by_cases h : p.1 = k
    · simp [mapSet, h]
    · have hne : ¬ (k = p.1) := fun hc => h hc.symm
      simp only [mapSet, if_neg h, List.map_cons, ih, List.mem_cons]
      by_cases hk : k ∈ rest.map Prod.fst <;> simp [hk, hne]

theorem nodup_keys_mapSet {κ : Type} [DecidableEq κ] {β : Type}
    {l : List (κ × β)} (k : κ) (v : β)
    (h : (l.map Prod.fst).Nodup) : ((mapSet l k v).map Prod.fst).Nodup := by
  rw [keys_mapSet]
  by_cases hk : k ∈ l.map Prod.fst
  · simpa [hk]
  · simp only [hk, if_false]
    rw [List.nodup_append]
    refine ⟨h, List.nodup_singleton k, ?_⟩
    intro a ha hmem
    rw [List.mem_singleton] at hmem
    exact hk (hmem ▸ ha)

theorem mapLookup_mapDelete_self {l : List (String × CacheEntry α)} {k : String}
    (h : (l.map Prod.fst).Nodup) : mapLookup k (mapDelete l k) = none := by
  induction l with
  | nil => rfl
  | cons p rest ih =>
    simp only [List.map_cons, List.nodup_cons] at h
    by_cases hk : p.1 = k
    · simp only [mapDelete, if_pos hk]
      apply mapLookup_eq_none_of_not_mem
      rw [← hk]
      exact h.1
    · simp only [mapDelete, if_neg hk, mapLookup, if_neg hk]
      exact ih h.2

theorem cleanup_keys_nodup (c : ApiCache α) (now : Nat)
    (h : (c.cache.map Prod.fst).Nodup) :
    ((c.cleanup now).cache.map Prod.fst).Nodup :=
  h.sublist ((cleanup_cache_sublist c now).map Prod.fst)

/-- C1: for a cache of capacity `maxSize ≥ 1`, the number of stored entries
stays at most `maxSize` after every sequence of `get`/`set`/`has`/`delete`/
`clear` operations; a `set` issued when the entry count is at or above
`maxSize` first runs `cleanup` (and only then inserts); `cleanup` removes
every expired entry; and when no entry is expired and the cache is at or
above capacity, `cleanup` evicts exactly the `⌈maxSize × 0.2⌉` entries with
the smallest `storedAt` (`timestamp`) values. -/
theorem cache_capacity_invariant_and_eviction (α : Type) (ttl maxSize : Nat)
    (hms : 1 ≤ maxSize) :
    (∀ ops : List (CacheOp α × Nat),
        (applyOps (ApiCache.mkEmpty α ttl maxSize) ops).cache.length ≤ maxSize)
    ∧ (∀ (c : ApiCache α) (key : String) (data : α) (ttlArg : Option Nat) (now : Nat),
        c.maxSize ≤ c.cache.length →
          c.set key data ttlArg now =
            { c.cleanup now with cache := (mapSet (c.cleanup now).cache key
                ⟨data, now, now + c.resolveTtl ttlArg⟩) })
    ∧ (∀ (c : ApiCache α) (now : Nat), ∀ p ∈ (c.cleanup now).cache, ¬ now > p.2.expiresAt)
    ∧ (∀ (c : ApiCache α) (now : Nat),
        (c.cache.map Prod.fst).Nodup →
        (∀ p ∈ c.cache, ¬ now > p.2.expiresAt) →
        c.maxSize ≤ c.cache.length →
        (c.cache.map (fun p => p.2.timestamp)).Nodup →
        ∀ p ∈ c.cache,
          (p.1 ∈ (c.cleanup now).cache.map Prod.fst ↔
            cleanupRemoveCount c.maxSize ≤
              (c.cache.filter (fun q => decide (q.2.timestamp < p.2.timestamp))).length)) := by
  refine ⟨?_, ?_, ?_, ?_⟩
  · intro ops
    have := applyOps_length (ApiCache.mkEmpty α ttl maxSize) ops (by simp [ApiCache.mkEmpty]) hms
    rw [show (ApiCache.mkEmpty α ttl maxSize).maxSize = maxSize from rfl] at this
    obtain ⟨h1, h2⟩ := this
    rw [h2] at h1
    exact h1
  · intro c key data ttlArg now h
    simp only [ApiCache.set, ge_iff_le, if_pos h]
  · intro c now p hp
    have hmem : p ∈ c.cache.filter (fun p => !(decide (now > p.2.expiresAt))) := by
      unfold ApiCache.cleanup at hp
      by_cases h : (c.cache.filter (fun p => !(decide (now > p.2.expiresAt)))).length ≥ c.maxSize
      · simp only [h, if_true] at hp
        exact (foldl_mapDelete_sublist _ _).subset hp
      · simpa only [h, if_false] using hp
    have := (List.mem_filter.mp hmem).2
    simpa using this
  · intro c now hnd hexp hfull hts
    exact cleanup_evicts_oldest c now hnd hexp hfull hts

/-- Witness for C1: a capacity-2 cache holds at most 2 entries after three
inserts at distinct times. -/
theorem cache_capacity_invariant_and_eviction_witness :
    1 ≤ 2 ∧
      (applyOps (ApiCache.mkEmpty Nat 100 2)
        [(CacheOp.set "a" 0 none, 10), (CacheOp.set "b" 1 none, 11),
         (CacheOp.set "c" 2 none, 12)]).cache.length ≤ 2 :=
  ⟨by decide,
    (cache_capacity_invariant_and_eviction Nat 100 2 (by decide)).1
      [(CacheOp.set "a" 0 none, 10), (CacheOp.set "b" 1 none, 11),
       (CacheOp.set "c" 2 none, 12)]⟩

/-- C2: `get` on an entry whose `expiresAt` is strictly before `now` returns
absent and evicts the entry; `get` strictly before `expiresAt` returns the
stored data; an entry inserted at `t` with a positive ttl `T` is present at
every query strictly before `t + T` and absent (and evicted) at every query
strictly after `t + T`. -/
theorem get_expiry_semantics (α : Type) (c : ApiCache α) (key : String) (now : Nat) :
    (∀ entry : CacheEntry α, mapLookup key c.cache = some entry →
       (entry.expiresAt < now →
          (c.get key now).1 = none ∧
          ((c.cache.map Prod.fst).Nodup →
            mapLookup key (c.get key now).2.cache = none))
       ∧ (now < entry.expiresAt → (c.get key now).1 = some entry.data))
    ∧ (∀ (v : α) (T t now' : Nat), 0 < T →
        (now' < t + T → ((c.set key v (some T) t).get key now').1 = some v)
        ∧ (t + T < now' → (c.cache.map Prod.fst).Nodup →
            ((c.set key v (some T) t).get key now').1 = none ∧
            mapLookup key ((c.set key v (some T) t).get key now').2.cache = none)) := by
  constructor
  · intro entry hent
    constructor
    · intro hlt
      have hgt : now > entry.expiresAt := hlt
      constructor
      · simp [ApiCache.get, hent, hgt]
      · intro hnd
        simp only [ApiCache.get, hent, if_pos hgt]
        exact mapLookup_mapDelete_self hnd
    · intro hlt
      have hngt : ¬ now > entry.expiresAt := by omega
      simp [ApiCache.get, hent, hngt]
  · intro v T t now' hT
    have hres : c.resolveTtl (some T) = T := by
      simp only [ApiCache.resolveTtl]
      rw [if_neg (by omega)]
    have hlook : mapLookup key (c.set key v (some T) t).cache =
        some ⟨v, t, t + T⟩ := by
      simp only [ApiCache.set, hres]
      by_cases h : c.cache.length ≥ c.maxSize <;>
        simp only [h, if_true, if_false] <;>
        exact mapLookup_mapSet _ key _
    constructor
    · intro hlt
      have hngt : ¬ now' > t + T := by omega
      simp [ApiCache.get, hlook, hngt]
    · intro hlt hnd
      have hgt : now' > t + T := hlt
      have hnd' : ((c.set key v (some T) t).cache.map Prod.fst).Nodup := by
        simp only [ApiCache.set, hres]
        by_cases h : c.cache.length ≥ c.maxSize
        · simp only [h, if_true]
          exact nodup_keys_mapSet key _ (cleanup_keys_nodup c t hnd)
        · simp only [h, if_false]
          exact nodup_keys_mapSet key _ hnd
      constructor
      · simp [ApiCache.get, hlook, hgt]
      · simp only [ApiCache.get, hlook, if_pos hgt]
        exact mapLookup_mapDelete_self hnd'

/-- Witness for C2: a value inserted at time 100 with ttl 5 is present at
time 104 and absent (and evicted) at time 106. -/
theorem get_expiry_semantics_witness :
    (0 < 5 ∧
      (((ApiCache.mkEmpty Nat 300 10).set "k" 7 (some 5) 100).get "k" 104).1 = some 7) ∧
    ((((ApiCache.mkEmpty Nat 300 10).set "k" 7 (some 5) 100).get "k" 106).1 = none ∧
      mapLookup "k" ((((ApiCache.mkEmpty Nat 300 10).set "k" 7 (some 5) 100).get
        "k" 106)).2.cache = none) :=
  ⟨⟨by decide,
      ((get_expiry_semantics Nat (ApiCache.mkEmpty Nat 300 10) "k" 0).2 7 5 100 104
        (by decide)).1 (by decide)⟩,
    ((get_expiry_semantics Nat (ApiCache.mkEmpty Nat 300 10) "k" 0).2 7 5 100 106
      (by decide)).2 (by decide) (by simp [ApiCache.mkEmpty])⟩

/-! ### Domain shapes of app/lib/github.ts -/

structure RepoDetails where
  owner : String
  name : String
  fullName : String
  description : String
  stars : Nat
  forks : Nat
  watchers : Nat
  primaryLanguage : String
  license : String
  updatedAt : String
  createdAt : String
  url : String
  defaultBranch : String
  size : Nat
  openIssuesCount : Nat
deriving DecidableEq

structure Contributor where
  login : String
  id : Nat
  avatarUrl : String
  url : String
  contributions : Nat
deriving DecidableEq

structure CommitActivity where
  week : Nat
  total : Nat
  days : List Nat
deriving DecidableEq

/-- `FileContent`: `children` is only populated by `buildFileTree`; a plain
listing entry leaves it `undefined` (`none`). -/
inductive FileContent where
  | mk (name path type : String) (content : Option String) (size : Nat)
      (url : String) (children : Option (List FileContent))

def FileContent.name : FileContent → String
  | .mk n _ _ _ _ _ _ => n

def FileContent.path : FileContent → String
  | .mk _ p _ _ _ _ _ => p

def FileContent.type : FileContent → String
  | .mk _ _ t _ _ _ _ => t

def FileContent.content : FileContent → Option String
  | .mk _ _ _ c _ _ _ => c

def FileContent.size : FileContent → Nat
  | .mk _ _ _ _ s _ _ => s

def FileContent.url : FileContent → String
  | .mk _ _ _ _ _ u _ => u

def FileContent.children : FileContent → Option (List FileContent)
  | .mk _ _ _ _ _ _ cs => cs

/-- `{ ...item, children }`: spread with an overridden `children` field. -/
def FileContent.withChildren : FileContent → Option (List FileContent) → FileContent
  | .mk n p t c s u _, cs => .mk n p t c s u cs

/-- A JavaScript error object as inspected by the fetchers: `status` (`0`
models a plain `new Error(...)`, which has no `status` property),
`message`, and whether `headers["x-ratelimit-remaining"] === "0"`. -/
structure ApiError where
  status : Nat
  message : String
  rlRemainingZero : Bool
deriving DecidableEq

/-- Does the character list start with the pattern? -/
def startsWithChars : List Char → List Char → Bool
  | _, [] => true
  | [], _ :: _ => false
  | c :: s, p :: ps => c == p && startsWithChars s ps

/-- Does the pattern occur somewhere in the character list? -/
def occursIn (pat : List Char) : List Char → Bool
  | [] => pat.isEmpty
  | c :: rest => startsWithChars (c :: rest) pat || occursIn pat rest

/-- `a.includes(b)` on strings. -/
def strContains (s pat : String) : Bool :=
  occursIn pat.toList s.toList

/-- `error.status === 403 && (error.message?.includes("rate limit") ||
error.headers?.["x-ratelimit-remaining"] === "0")`. -/
def isRateLimitError (e : ApiError) : Bool :=
  e.status == 403 && (strContains e.message "rate limit" || e.rlRemainingZero)

/-- The fixed denylist of `shouldSkipPath`. -/
def skipPatterns : List String :=
  ["node_modules", "dist", "build", ".git",
   ".jpg", ".jpeg", ".png", ".gif", ".ico",
   ".woff", ".woff2", ".ttf", ".eot", ".otf",
   ".mp4", ".webm", ".ogg", ".mp3", ".wav",
   ".pdf", ".zip", ".tar", ".gz", ".rar",
   ".dll", ".exe", ".so", ".dylib",
   "package-lock.json", "yarn.lock"]

/-- ASCII lowercasing of one character; `String.prototype.toLowerCase()`
restricted to ASCII, which covers every pattern of the denylist. -/
def lowerChar (c : Char) : Char :=
  if 'A' ≤ c ∧ c ≤ 'Z' then Char.ofNat (c.toNat + 32) else c

/-- `s.toLowerCase()` as a character list. -/
def lowerChars (s : String) : List Char :=
  s.toList.map lowerChar

/-- `shouldSkipPath`: case-insensitive substring match against the denylist
(`path.toLowerCase().includes(pattern.toLowerCase())`). -/
def shouldSkipPath (path : String) : Bool :=
  skipPatterns.any (fun pattern => occursIn (lowerChars pattern) (lowerChars path))

/-- `isApproachingRateLimit(remaining, limit)`: `remaining < limit * 0.1`
(console-warning only; it changes no behavior). -/
def isApproachingRateLimit (remaining limit : Nat) : Bool :=
  decide (10 * remaining < limit)

/-- `ENABLE_UNGH_FALLBACK = false`: the UNGH.cc fallback branches are dead. -/
def ENABLE_UNGH_FALLBACK : Bool := false

/-- `formatSize` (one decimal place; the float `toFixed(1)` rounding is
modelled by integer rounding-to-nearest of tenths). -/
def formatSize (sizeInBytes : Nat) : String :=
  if sizeInBytes ≥ 1024 * 1024 then
    let t := (sizeInBytes * 10 + 524288) / 1048576
    toString (t / 10) ++ "." ++ toString (t % 10) ++ " MB"
  else if sizeInBytes ≥ 1024 then
    let t := (sizeInBytes * 10 + 512) / 1024
    toString (t / 10) ++ "." ++ toString (t % 10) ++ " KB"
  else
    toString sizeInBytes ++ " bytes"

structure RateLimitInfo where
  limit : Nat
  remaining : Nat
  reset : Nat
  isAuthenticated : Bool
deriving DecidableEq

/-- A value stored in one of the three `ApiCache` instances (the source
caches are untyped `CacheEntry<any>`; the key scheme keeps each key space
to one payload shape). -/
inductive CacheVal where
  | repoD (d : RepoDetails)
  | contribs (cs : List Contributor)
  | commits (ws : List CommitActivity)
  | files (fs : List FileContent)
  | text (s : String)
  | rate (r : RateLimitInfo)

/-! ### Raw provider payloads (successful octokit responses) -/

structure RawRate where
  limit : Nat
  remaining : Nat
  reset : Nat
deriving DecidableEq

structure RawRepo where
  ownerLogin : String
  name : String
  fullName : String
  description : Option String
  stargazersCount : Nat
  forksCount : Nat
  watchersCount : Nat
  language : Option String
  licenseName : Option String
  updatedAt : String
  createdAt : String
  htmlUrl : String
  defaultBranch : String
  size : Nat
  openIssuesCount : Nat
deriving DecidableEq

structure RawContributor where
  login : Option String
  id : Option Nat
  avatarUrl : Option String
  htmlUrl : Option String
  contributions : Nat
deriving DecidableEq

structure RawContentItem where
  name : String
  path : String
  type : String
  size : Nat
  htmlUrl : Option String
deriving DecidableEq

/-- A single-file `getContent` payload.  `content` is the base64-decoded
text when the `content` property is present (`none` models an absent
property, e.g. for symlinks); base64 decoding itself is abstracted: the
oracle supplies the decoded text. -/
structure RawFile where
  name : String
  path : String
  type : String
  content : Option String
  size : Nat
  htmlUrl : Option String
deriving DecidableEq

inductive ContentData where
  | dir (items : List RawContentItem)
  | file (f : RawFile)
deriving DecidableEq

/-- Outcome of one `getCommitActivityStats` call: HTTP 202 (GitHub still
computing), a fulfilled response with well-typed week data (the defensive
re-mapping of malformed payloads in the source is the identity on
well-typed data), or a rejection. -/
inductive StatsResp where
  | pending
  | okData (ws : List CommitActivity)
  | reject (e : ApiError)

/-- The environment of one run: whether a token is configured
(`isAuthenticated()`), and the outcome of the n-th network attempt on each
endpoint. -/
structure GitHubEnv where
  authenticated : Bool
  rateResp : Nat → Except ApiError RawRate
  repoResp : Nat → Except ApiError RawRepo
  contributorsResp : Nat → Except ApiError (List RawContributor)
  statsResp : Nat → StatsResp
  commitsResp : Nat → Except ApiError (List (Option Nat))
  contentResp : Nat → Except ApiError ContentData

/-- Mutable module state: the three cache instances, `Date.now()` in
milliseconds, and instrumentation (how many network attempts each endpoint
has received; the `setTimeout` sleeps issued, in order). -/
structure St where
  repoCache : ApiCache CacheVal
  contentCache : ApiCache CacheVal
  rateLimitCache : ApiCache CacheVal
  now : Nat
  rateCalls : Nat
  repoCalls : Nat
  contributorCalls : Nat
  statsCalls : Nat
  commitsCalls : Nat
  contentCalls : Nat
  sleeps : List Nat

/-- `await new Promise(resolve => setTimeout(resolve, ms))`: time advances
and the sleep is recorded. -/
def St.sleep (st : St) (ms : Nat) : St :=
  { st with now := st.now + ms, sleeps := st.sleeps ++ [ms] }

/-- The module-load state: `repoCache` (ttl 10 min), `contentCache`
(ttl 30 min), `rateLimitCache` (ttl 30 s), all with the default
`maxSize` 100; no calls issued yet. -/
def initialSt (now : Nat) : St :=
  { repoCache := ApiCache.mkEmpty CacheVal (10 * 60 * 1000) 100,
    contentCache := ApiCache.mkEmpty CacheVal (30 * 60 * 1000) 100,
    rateLimitCache := ApiCache.mkEmpty CacheVal (30 * 1000) 100,
    now := now, rateCalls := 0, repoCalls := 0, contributorCalls := 0,
    statsCalls := 0, commitsCalls := 0, contentCalls := 0, sleeps := [] }

/-! ### getRateLimit (github.ts lines 828-865) -/

/-- Extract a `rate` cache payload; the untyped `get<T>` cast is sound here
because the `rate-limit` key only ever stores `rate` values. -/
def CacheVal.asRate : CacheVal → Option RateLimitInfo
  | .rate r => some r
  | _ => none

def CacheVal.asRepoD : CacheVal → Option RepoDetails
  | .repoD d => some d
  | _ => none

def CacheVal.asContribs : CacheVal → Option (List Contributor)
  | .contribs cs => some cs
  | _ => none

def CacheVal.asCommits : CacheVal → Option (List CommitActivity)
  | .commits ws => some ws
  | _ => none

def CacheVal.asFiles : CacheVal → Option (List FileContent)
  | .files fs => some fs
  | _ => none

def CacheVal.asText : CacheVal → Option String
  | .text s => some s
  | _ => none

/-- `getRateLimit`: serve from `rateLimitCache` (key `rate-limit`) when
possible; otherwise one `octokit.rateLimit.get()` attempt, normalized and
cached; a rejection surfaces
`Error("Failed to fetch rate limit information")`. -/
def getRateLimit (env : GitHubEnv) (st : St) : Except ApiError RateLimitInfo × St :=
  let hit := st.rateLimitCache.get "rate-limit" st.now
  let st := { st with rateLimitCache := hit.2 }
  match hit.1.bind CacheVal.asRate with
  | some cached => (Except.ok cached, st)
  | none =>
    let st1 := { st with rateCalls := st.rateCalls + 1 }
    match env.rateResp st.rateCalls with
    | Except.ok raw =>
      let result : RateLimitInfo := ⟨raw.limit, raw.remaining, raw.reset, env.authenticated⟩
      let st2 := { st1 with rateLimitCache :=
        st1.rateLimitCache.set "rate-limit" (CacheVal.rate result) none st1.now }
      (Except.ok result, st2)
    | Except.error _ =>
      (Except.error ⟨0, "Failed to fetch rate limit information", false⟩, st1)

/-! ### getRepoContents (github.ts lines 508-604) -/

/-- The message of the error thrown by `getRepoContents` once its
rate-limit retry budget is exhausted. -/
def rateLimitContentsMessage (path : String) (auth : Bool) : String :=
  "GitHub API rate limit exceeded when fetching contents for path: " ++ path ++ ". " ++
    (if auth then "Try again later."
     else "Add a GitHub token to increase your rate limit from 60 to 5,000 requests per hour.")

/-- Normalization of one directory-listing item (no `content`, no
`children`). -/
def mapDirItem (item : RawContentItem) : FileContent :=
  .mk item.name item.path item.type none item.size (item.htmlUrl.getD "#") none

/-- Normalization of a single-file response:
`'content' in fileData && fileData.content ? decode(...) : undefined`
(an empty base64 string is falsy). -/
def mapSingleFile (f : RawFile) : FileContent :=
  .mk f.name f.path f.type
    (match f.content with
     | some s => if s = "" then none else some s
     | none => none)
    f.size (f.htmlUrl.getD "#") none

/-- `getRepoContents(owner, repo, path, maxSize = 1000, retryCount = 0)`.
The `maxSize` parameter is accepted but never read by the source body.
On a rate-limit rejection it consults `getRateLimit` and retries (at most
twice, and only when the reported reset is under 30 s away); 404 and all
other failures yield an empty listing. -/
def getRepoContents (env : GitHubEnv) (owner repo path : String) (maxSizeArg : Nat)
    (retryCount : Nat) (st : St) : Except ApiError (List FileContent) × St :=
  let cacheKey := "repo-contents:" ++ owner ++ "/" ++ repo ++ ":" ++ path
  let hit := st.contentCache.get cacheKey st.now
  let st := { st with contentCache := hit.2 }
  match hit.1.bind CacheVal.asFiles with
  | some cached => (Except.ok cached, st)
  | none =>
    if shouldSkipPath path then (Except.ok [], st)
    else
      let st1 := { st with contentCalls := st.contentCalls + 1 }
      match env.contentResp st.contentCalls with
      | Except.ok (ContentData.dir items) =>
        let result := items.map mapDirItem
        let st2 := { st1 with contentCache :=
          st1.contentCache.set cacheKey (CacheVal.files result) none st1.now }
        (Except.ok result, st2)
      | Except.ok (ContentData.file f) =>
        let result := [mapSingleFile f]
        let st2 := { st1 with contentCache :=
          st1.contentCache.set cacheKey (CacheVal.files result) none st1.now }
        (Except.ok result, st2)
      | Except.error e =>
        if isRateLimitError e then
          match getRateLimit env st1 with
          | (Except.ok rateLimit, st2) =>
            let currentTime := st2.now / 1000
            let timeToReset := rateLimit.reset - currentTime
            if h : retryCount < 2 ∧ timeToReset < 30 then
              let st3 := st2.sleep ((timeToReset + 1) * 1000)
              getRepoContents env owner repo path maxSizeArg (retryCount + 1) st3
            else
              (Except.error ⟨0, rateLimitContentsMessage path env.authenticated, false⟩, st2)
          | (Except.error _, st2) =>
            (Except.error ⟨0, rateLimitContentsMessage path env.authenticated, false⟩, st2)
        else if e.status = 404 then (Except.ok [], st1)
        else (Except.ok [], st1)
termination_by 2 - retryCount
decreasing_by omega

theorem ApiCache.get_of_lookup_none {c : ApiCache α} {key : String} (now : Nat)
    (h : mapLookup key c.cache = none) : c.get key now = (none, c) := by
  simp [ApiCache.get, h]

theorem getRateLimit_preserves (env : GitHubEnv) (st : St) :
    (getRateLimit env st).2.contentCache = st.contentCache ∧
    (getRateLimit env st).2.contentCalls = st.contentCalls ∧
    (getRateLimit env st).2.now = st.now ∧
    (getRateLimit env st).2.repoCache = st.repoCache ∧
    (getRateLimit env st).2.repoCalls = st.repoCalls ∧
    (getRateLimit env st).2.sleeps = st.sleeps := by
  unfold getRateLimit
  cases h1 : ((st.rateLimitCache.get "rate-limit" st.now).1.bind CacheVal.asRate) with
  | some cached => simp [h1]
  | none =>
    cases h2 : env.rateResp st.rateCalls with
    | ok raw => simp [h1, h2]
    | error e => simp [h1, h2]

/-- One step of `getRepoContents` under an everywhere-rate-limited content
endpoint: either it retries (only when `retryCount < 2`), consuming one
network attempt, or it stops with the RateLimited error, also consuming
one attempt. -/
theorem getRepoContents_rl_step (env : GitHubEnv) (owner repo path : String)
    (ms rc : Nat) (st : St)
    (hskip : shouldSkipPath path = false)
    (hkey : mapLookup ("repo-contents:" ++ owner ++ "/" ++ repo ++ ":" ++ path)
      st.contentCache.cache = none)
    (e : ApiError) (he : env.contentResp st.contentCalls = Except.error e)
    (herl : isRateLimitError e = true) :
    (∃ st', rc < 2 ∧
        getRepoContents env owner repo path ms rc st =
          getRepoContents env owner repo path ms (rc + 1) st' ∧
        st'.contentCalls = st.contentCalls + 1 ∧
        st'.contentCache = st.contentCache)
    ∨ ((getRepoContents env owner repo path ms rc st).1 =
          Except.error ⟨0, rateLimitContentsMessage path env.authenticated, false⟩ ∧
        (getRepoContents env owner repo path ms rc st).2.contentCalls =
          st.contentCalls + 1) := by
  have hget := ApiCache.get_of_lookup_none st.now hkey
  rw [getRepoContents]
  simp only [hget, Option.bind, hskip, Bool.false_eq_true, if_false, he, herl]
  rw [if_pos trivial]
  set st1 : St := { st with contentCalls := st.contentCalls + 1 } with hst1
  split
  next rateLimit st2 heq =>
    have hpres := getRateLimit_preserves env st1
    rw [heq] at hpres
    split
    next hcond =>
      left
      exact ⟨st2.sleep ((rateLimit.reset - st2.now / 1000 + 1) * 1000), hcond.1, rfl,
        hpres.2.1, hpres.1⟩
    next hcond =>
      right
      exact ⟨rfl, hpres.2.1⟩
  next e2 st2 heq =>
    have hpres := getRateLimit_preserves env st1
    rw [heq] at hpres
    right
    exact ⟨rfl, hpres.2.1⟩

/-- C3: when every network attempt of `getRepoContents` is rejected with a
rate-limit error, the operation retries at most 2 times (at most 3 network
attempts in total) and then throws the RateLimited error — whose message
recommends adding a token when unauthenticated and says to try again later
when authenticated — no matter how small the reported seconds-to-reset is. -/
theorem rate_limit_retry_bound (env : GitHubEnv) (owner repo path : String) (ms : Nat)
    (hskip : shouldSkipPath path = false)
    (hrl : ∀ n, ∃ e, env.contentResp n = Except.error e ∧ isRateLimitError e = true)
    (st : St)
    (hkey : mapLookup ("repo-contents:" ++ owner ++ "/" ++ repo ++ ":" ++ path)
      st.contentCache.cache = none) :
    (getRepoContents env owner repo path ms 0 st).1 =
      Except.error ⟨0, rateLimitContentsMessage path env.authenticated, false⟩ ∧
    (getRepoContents env owner repo path ms 0 st).2.contentCalls ≤ st.contentCalls + 3 ∧
    rateLimitContentsMessage path env.authenticated =
      "GitHub API rate limit exceeded when fetching contents for path: " ++ path ++ ". " ++
        (if env.authenticated then "Try again later."
         else "Add a GitHub token to increase your rate limit from 60 to 5,000 requests per hour.") := by
  have aux : ∀ (k rc : Nat) (st : St), 2 - rc ≤ k →
      mapLookup ("repo-contents:" ++ owner ++ "/" ++ repo ++ ":" ++ path)
        st.contentCache.cache = none →
      (getRepoContents env owner repo path ms rc st).1 =
        Except.error ⟨0, rateLimitContentsMessage path env.authenticated, false⟩ ∧
      (getRepoContents env owner repo path ms rc st).2.contentCalls ≤
        st.contentCalls + 1 + (2 - rc) := by
    intro k
    induction k with
    | zero =>
      intro rc st hk hkey2
      obtain ⟨e, he, herl⟩ := hrl st.contentCalls
      rcases getRepoContents_rl_step env owner repo path ms rc st hskip hkey2 e he herl with
        ⟨st', hlt, heq, hcalls, hcache⟩ | ⟨h1, h2⟩
      · exact absurd hlt (by omega)
      · exact ⟨h1, by omega⟩
    | succ k ih =>
      intro rc st hk hkey2
      obtain ⟨e, he, herl⟩ := hrl st.contentCalls
      rcases getRepoContents_rl_step env owner repo path ms rc st hskip hkey2 e he herl with
        ⟨st', hlt, heq, hcalls, hcache⟩ | ⟨h1, h2⟩
      · have hkey' : mapLookup ("repo-contents:" ++ owner ++ "/" ++ repo ++ ":" ++ path)
            st'.contentCache.cache = none := by rw [hcache]; exact hkey2
        have hres := ih (rc + 1) st' (by omega) hkey'
        rw [heq]
        refine ⟨hres.1, ?_⟩
        have h3 := hres.2
        omega
      · exact ⟨h1, by omega⟩
  have main := aux 2 0 st (by omega) hkey
  refine ⟨main.1, ?_, rfl⟩
  have h2 := main.2
  omega

/-- A representative GitHub rate-limit rejection (HTTP 403, message
mentioning the rate limit). -/
def demoRateLimitedError : ApiError :=
  ⟨403, "API rate limit exceeded for 203.0.113.5.", false⟩

/-- An unauthenticated environment whose every attempt, on every endpoint,
is rejected with a rate-limit error and whose quota window resets almost
immediately. -/
def demoEnvAllRateLimited : GitHubEnv :=
  { authenticated := false
    rateResp := fun _ => Except.ok ⟨60, 0, 501⟩
    repoResp := fun _ => Except.error demoRateLimitedError
    contributorsResp := fun _ => Except.error demoRateLimitedError
    statsResp := fun _ => StatsResp.reject demoRateLimitedError
    commitsResp := fun _ => Except.error demoRateLimitedError
    contentResp := fun _ => Except.error demoRateLimitedError }

/-- Witness for C3: on a fresh state, an unauthenticated everywhere
rate-limited fetch of `src` makes at most 3 attempts and throws the
token-recommending RateLimited message. -/
theorem rate_limit_retry_bound_witness :
    shouldSkipPath "src" = false ∧
    (getRepoContents demoEnvAllRateLimited "octo" "demo" "src" 1000 0 (initialSt 500000)).1 =
      Except.error ⟨0, rateLimitContentsMessage "src" false, false⟩ ∧
    (getRepoContents demoEnvAllRateLimited "octo" "demo" "src" 1000 0
      (initialSt 500000)).2.contentCalls ≤ 3 := by
  have h := rate_limit_retry_bound demoEnvAllRateLimited "octo" "demo" "src" 1000
    (by decide) (fun n => ⟨demoRateLimitedError, rfl, by decide⟩) (initialSt 500000) rfl
  exact ⟨by decide, h.1, h.2.1⟩

/-! ### getCommitActivity (github.ts lines 353-506) -/

/-- `7 * 24 * 60 * 60` seconds. -/
def SECONDS_PER_WEEK : Nat := 7 * 24 * 60 * 60

/-- `commitTime - (commitTime % (7*24*60*60))`: the enclosing week bucket,
aligned to the Unix epoch in 7-day multiples. -/
def weekStartOf (t : Nat) : Nat := t - t % SECONDS_PER_WEEK

/-- `new Date(t*1000).getUTCDay()` for a non-negative Unix timestamp `t` in
seconds (day 0 = Sunday; the Unix epoch fell on a Thursday, day 4). -/
def dayOfWeekUTC (t : Nat) : Nat := (t / 86400 + 4) % 7

/-- The `weeklyCommits` map pre-seeded with the last 4 week buckets
(`for (let i = 0; i < 4; i++) ...`). -/
def initWeeks (currentTime : Nat) : List (Nat × (Nat × List Nat)) :=
  (List.range 4).foldl
    (fun m i =>
      let weekTime := currentTime - i * SECONDS_PER_WEEK
      let weekStart := weekStartOf weekTime
      mapSet m weekStart (0, List.replicate 7 0))
    []

/-- Record one commit (timestamp `t` in seconds) into the `weeklyCommits`
map: create the bucket if missing, then increment its total and its
day-of-week slot. -/
def recordCommit (m : List (Nat × (Nat × List Nat))) (t : Nat) :
    List (Nat × (Nat × List Nat)) :=
  let weekStart := weekStartOf t
  let dayOfWeek := dayOfWeekUTC t
  let m1 := if (mapLookup weekStart m).isNone
    then mapSet m weekStart (0, List.replicate 7 0) else m
  match mapLookup weekStart m1 with
  | some wk => mapSet m1 weekStart (wk.1 + 1, wk.2.set dayOfWeek (wk.2.getD dayOfWeek 0 + 1))
  | none => m1

/-- The client-side weekly bucketing of `getCommitActivityAlternative`
(lines 463-499): seed the last 4 weeks, fold the commit author dates
(skipping commits without one), convert to `CommitActivity` and sort by
week ascending (`.sort((a, b) => a.week - b.week)`). -/
def bucketCommits (currentTime : Nat) (dates : List (Option Nat)) : List CommitActivity :=
  let final := dates.foldl
    (fun m d => match d with
      | none => m
      | some t => recordCommit m t)
    (initWeeks currentTime)
  (final.map (fun p => CommitActivity.mk p.1 p.2.1 p.2.2)).mergeSort
    (fun a b => decide (a.week ≤ b.week))

/-- `getCommitActivityAlternative`: one `listCommits` attempt over the last
30 days; its own catch turns any rejection into an empty list, and an
empty commit list also yields `[]`. -/
def getCommitActivityAlternative (env : GitHubEnv) (st : St) :
    Except ApiError (List CommitActivity) × St :=
  let st1 := { st with commitsCalls := st.commitsCalls + 1 }
  match env.commitsResp st.commitsCalls with
  | Except.error _ => (Except.ok [], st1)
  | Except.ok dates =>
    if dates.length = 0 then (Except.ok [], st1)
    else (Except.ok (bucketCommits (st1.now / 1000) dates), st1)

/-- The message of the still-computing error constructed after 3 retries.
Because the `throw` sits inside the function own `try` block, this error is
caught by the function own `catch` and never reaches the caller. -/
def stillComputingMessage : String :=
  "GitHub is still computing commit activity statistics. Please try again in a few moments."

/-- `getCommitActivity(owner, repo, retryCount = 0)`: serve from
`repoCache` when possible; on HTTP 202 sleep 3 s and retry up to 3 times;
once the budget is exhausted the thrown still-computing error is swallowed
by the function own `catch` (the error carries no `status`), which falls
through to `getCommitActivityAlternative`.  A rate-limited or 404
rejection is rethrown with a fixed message; any other rejection also falls
back to the alternative computation. -/
def getCommitActivity (env : GitHubEnv) (owner repo : String) (retryCount : Nat)
    (st : St) : Except ApiError (List CommitActivity) × St :=
  let cacheKey := "commit-activity:" ++ owner ++ "/" ++ repo
  let hit := st.repoCache.get cacheKey st.now
  let st := { st with repoCache := hit.2 }
  match hit.1.bind CacheVal.asCommits with
  | some cached => (Except.ok cached, st)
  | none =>
    let st1 := { st with statsCalls := st.statsCalls + 1 }
    match env.statsResp st.statsCalls with
    | StatsResp.pending =>
      if h : retryCount < 3 then
        getCommitActivity env owner repo (retryCount + 1) (st1.sleep 3000)
      else
        getCommitActivityAlternative env st1
    | StatsResp.okData ws =>
      if ws.length = 0 then (Except.ok [], st1)
      else
        let result := ws
        let st2 := { st1 with repoCache := (st1.repoCache.set cacheKey
          (CacheVal.commits result) none st1.now) }
        (Except.ok result, st2)
    | StatsResp.reject e =>
      if isRateLimitError e then
        (Except.error ⟨0, "GitHub API rate limit exceeded. Please try again later.", false⟩, st1)
      else if e.status = 404 then
        (Except.error ⟨0, "Repository not found or you do not have access to it.", false⟩, st1)
      else
        getCommitActivityAlternative env st1
termination_by 3 - retryCount
decreasing_by omega

theorem getCommitActivity_pending_step (env : GitHubEnv) (owner repo : String)
    (rc : Nat) (st : St)
    (hkey : mapLookup ("commit-activity:" ++ owner ++ "/" ++ repo) st.repoCache.cache = none)
    (hpend : env.statsResp st.statsCalls = StatsResp.pending)
    (hrc : rc < 3) :
    getCommitActivity env owner repo rc st =
      getCommitActivity env owner repo (rc + 1)
        (({ st with statsCalls := st.statsCalls + 1 } : St).sleep 3000) := by
  have hget := ApiCache.get_of_lookup_none st.now hkey
  rw [getCommitActivity]
  simp only [hget, Option.bind, hpend]
  rw [dif_pos hrc]

theorem getCommitActivity_pending_exhaust (env : GitHubEnv) (owner repo : String)
    (rc : Nat) (st : St)
    (hkey : mapLookup ("commit-activity:" ++ owner ++ "/" ++ repo) st.repoCache.cache = none)
    (hpend : env.statsResp st.statsCalls = StatsResp.pending)
    (hrc : ¬ rc < 3) (e : ApiError)
    (hc : env.commitsResp st.commitsCalls = Except.error e) :
    getCommitActivity env owner repo rc st =
      (Except.ok [], { st with statsCalls := st.statsCalls + 1, commitsCalls := st.commitsCalls + 1 }) := by
  have hget := ApiCache.get_of_lookup_none st.now hkey
  rw [getCommitActivity]
  simp only [hget, Option.bind, hpend]
  rw [dif_neg hrc]
  unfold getCommitActivityAlternative
  simp only [hc]

/-- C4: when the statistics endpoint keeps answering HTTP 202 (pending),
`getCommitActivity` does retry up to 3 times with a fixed 3000 ms delay
between attempts (4 attempts in total) — but after the budget is exhausted
the still-computing error it constructs is thrown inside its own `try`
block, swallowed by its own `catch`, and the caller instead receives the
result of the alternative computation (`Except.ok []` when the commit
listing also fails): no still-computing error ever reaches the caller. -/
theorem commit_activity_pending_swallowed (env : GitHubEnv) (owner repo : String)
    (st : St)
    (hkey : mapLookup ("commit-activity:" ++ owner ++ "/" ++ repo) st.repoCache.cache = none)
    (hpend : ∀ n, env.statsResp n = StatsResp.pending)
    (hcomm : ∀ n, ∃ e, env.commitsResp n = Except.error e) :
    (getCommitActivity env owner repo 0 st).1 = Except.ok [] ∧
    (getCommitActivity env owner repo 0 st).2.statsCalls = st.statsCalls + 4 ∧
    (getCommitActivity env owner repo 0 st).2.sleeps = st.sleeps ++ [3000, 3000, 3000] := by
  have h1 := getCommitActivity_pending_step env owner repo 0 st hkey (hpend _) (by omega)
  set stA : St := ({ st with statsCalls := st.statsCalls + 1 } : St).sleep 3000 with hstA
  have h2 := getCommitActivity_pending_step env owner repo 1 stA hkey (hpend _) (by omega)
  set stB : St := ({ stA with statsCalls := stA.statsCalls + 1 } : St).sleep 3000 with hstB
  have h3 := getCommitActivity_pending_step env owner repo 2 stB hkey (hpend _) (by omega)
  set stC : St := ({ stB with statsCalls := stB.statsCalls + 1 } : St).sleep 3000 with hstC
  obtain ⟨e, he⟩ := hcomm stC.commitsCalls
  have h4 := getCommitActivity_pending_exhaust env owner repo 3 stC hkey (hpend _)
    (by omega) e he
  rw [h1, h2, h3, h4]
  refine ⟨rfl, ?_, ?_⟩
  · simp [hstC, hstB, hstA, St.sleep]
  · simp [hstC, hstB, hstA, St.sleep]

/-- An environment whose statistics endpoint always answers HTTP 202 and
whose commit listing always fails with a server error. -/
def demoEnvPending : GitHubEnv :=
  { authenticated := false
    rateResp := fun _ => Except.ok ⟨60, 50, 0⟩
    repoResp := fun _ => Except.error ⟨500, "boom", false⟩
    contributorsResp := fun _ => Except.error ⟨500, "boom", false⟩
    statsResp := fun _ => StatsResp.pending
    commitsResp := fun _ => Except.error ⟨500, "boom", false⟩
    contentResp := fun _ => Except.error ⟨500, "boom", false⟩ }

/-- Witness for C4: on a fresh state under a permanently pending
statistics endpoint, the caller receives `Except.ok []` — not an error —
after 4 attempts separated by three 3000 ms sleeps. -/
theorem commit_activity_pending_swallowed_witness :
    (getCommitActivity demoEnvPending "octo" "demo" 0 (initialSt 500000)).1 = Except.ok [] ∧
    (getCommitActivity demoEnvPending "octo" "demo" 0 (initialSt 500000)).2.statsCalls = 4 ∧
    (getCommitActivity demoEnvPending "octo" "demo" 0 (initialSt 500000)).2.sleeps =
      [3000, 3000, 3000] := by
  have h := commit_activity_pending_swallowed demoEnvPending "octo" "demo"
    (initialSt 500000) rfl (fun n => rfl) (fun n => ⟨⟨500, "boom", false⟩, rfl⟩)
  exact ⟨h.1, h.2.1, h.2.2⟩

/-! ### Correctness of the alternative weekly bucketing (C6) -/

theorem mapLookup_mem {κ : Type} [DecidableEq κ] {β : Type} {l : List (κ × β)}
    {k : κ} {v : β} (h : mapLookup k l = some v) : (k, v) ∈ l := by
  induction l with
  | nil => simp [mapLookup] at h
  | cons p rest ih =>
    simp only [mapLookup] at h
    by_cases hk : p.1 = k
    · rw [if_pos hk] at h
      injection h with h2
      refine List.mem_cons.mpr (Or.inl ?_)
      rw [← hk, ← h2]
    · rw [if_neg hk] at h
      exact List.mem_cons_of_mem _ (ih h)

theorem mem_mapSet_iff {κ : Type} [DecidableEq κ] {β : Type} {l : List (κ × β)}
    (hnd : (l.map Prod.fst).Nodup) (k : κ) (v : β) (p : κ × β) :
    p ∈ mapSet l k v ↔ (p = (k, v) ∨ (p ∈ l ∧ p.1 ≠ k)) := by
  induction l with
  | nil =>
    constructor
    · intro h
      rcases List.mem_singleton.mp h with rfl
      exact Or.inl rfl
    · rintro (rfl | ⟨hp, hne⟩)
      · exact List.mem_singleton.mpr rfl
      · exact absurd hp (List.not_mem_nil p)
  | cons q rest ih =>
    simp only [List.map_cons, List.nodup_cons] at hnd
    by_cases hk : q.1 = k
    · rw [show mapSet (q :: rest) k v = (k, v) :: rest by
        simp only [mapSet]
        rw [if_pos hk]]
      constructor
      · intro h
        rcases List.mem_cons.mp h with rfl | hp
        · exact Or.inl rfl
        · refine Or.inr ⟨List.mem_cons_of_mem _ hp, ?_⟩
          intro hc
          apply hnd.1
          rw [hk, ← hc]
          exact List.mem_map_of_mem Prod.fst hp
      · rintro (rfl | ⟨hp, hne⟩)
        · exact List.mem_cons_self _ _
        · rcases List.mem_cons.mp hp with rfl | hp2
          · exact absurd hk hne
          · exact List.mem_cons_of_mem _ hp2
    · rw [show mapSet (q :: rest) k v = q :: mapSet rest k v by
        simp only [mapSet]
        rw [if_neg hk]]
      constructor
      · intro h
        rcases List.mem_cons.mp h with rfl | hp
        · exact Or.inr ⟨List.mem_cons_self _ _, fun hc => hk hc⟩
        · rcases (ih hnd.2).mp hp with rfl | ⟨hp2, hne⟩
          · exact Or.inl rfl
          · exact Or.inr ⟨List.mem_cons_of_mem _ hp2, hne⟩
      · rintro (rfl | ⟨hp, hne⟩)
        · exact List.mem_cons_of_mem _ ((ih hnd.2).mpr (Or.inl rfl))
        · rcases List.mem_cons.mp hp with rfl | hp2
          · exact List.mem_cons_self _ _
          · exact List.mem_cons_of_mem _ ((ih hnd.2).mpr (Or.inr ⟨hp2, hne⟩))

theorem sum_set_succ (l : List Nat) (i : Nat) (h : i < l.length) :
    (l.set i (l.getD i 0 + 1)).sum = l.sum + 1 := by
  induction l generalizing i with
  | nil => simp at h
  | cons a rest ih =>
    cases i with
    | zero => simp [List.getD]; omega
    | succ j =>
      simp only [List.length_cons] at h
      simp only [List.set_cons_succ, List.sum_cons, List.getD_cons_succ]
      rw [ih j (by omega)]
      omega

theorem weekStartOf_mod (t : Nat) : weekStartOf t % SECONDS_PER_WEEK = 0 := by
  unfold weekStartOf SECONDS_PER_WEEK
  omega

theorem weekStartOf_eq_iff (t w : Nat) (hw : w % SECONDS_PER_WEEK = 0) :
    weekStartOf t = w ↔ (w ≤ t ∧ t < w + SECONDS_PER_WEEK) := by
  unfold weekStartOf SECONDS_PER_WEEK at *
  omega

theorem dayOfWeekUTC_lt (t : Nat) : dayOfWeekUTC t < 7 := by
  unfold dayOfWeekUTC
  omega

/-- The invariant carried through the bucketing fold: keys are distinct,
every bucket is epoch-aligned, holds a 7-slot `days` array summing to its
`total`, the `total` counts exactly the processed commits of that bucket,
and every processed commit has a bucket. -/
def BucketWF (m : List (Nat × (Nat × List Nat))) (done : List Nat) : Prop :=
  (m.map Prod.fst).Nodup ∧
  (∀ p ∈ m, p.1 % SECONDS_PER_WEEK = 0 ∧ p.2.2.length = 7 ∧ p.2.2.sum = p.2.1 ∧
      p.2.1 = (done.filter (fun t => weekStartOf t = p.1)).length) ∧
  (∀ t ∈ done, weekStartOf t ∈ m.map Prod.fst)

theorem bucketWF_initWeeks (currentTime : Nat) : BucketWF (initWeeks currentTime) [] := by
  unfold initWeeks
  rw [show List.range 4 = [0, 1, 2, 3] from rfl]
  simp only [List.foldl_cons, List.foldl_nil]
  refine ⟨?_, ?_, ?_⟩
  · apply nodup_keys_mapSet
    apply nodup_keys_mapSet
    apply nodup_keys_mapSet
    apply nodup_keys_mapSet
    simp
  · intro p hp
    have hstep : ∀ (l : List (Nat × (Nat × List Nat))) (x : Nat) (q : Nat × (Nat × List Nat)),
        q ∈ mapSet l (weekStartOf x) (0, List.replicate 7 0) →
        q = (weekStartOf x, (0, List.replicate 7 0)) ∨ q ∈ l := by
      intro l x q hq
      induction l with
      | nil => simpa [mapSet] using hq
      | cons a rest ih =>
        simp only [mapSet] at hq
        by_cases ha : a.1 = weekStartOf x
        · rw [if_pos ha] at hq
          rcases List.mem_cons.mp hq with rfl | hq
          · left; rfl
          · right; exact List.mem_cons_of_mem _ hq
        · rw [if_neg ha] at hq
          rcases List.mem_cons.mp hq with rfl | hq
          · right; exact List.mem_cons_self _ _
          · rcases ih hq with h | h
            · left; exact h
            · right; exact List.mem_cons_of_mem _ h
    have hbase : ∀ q : Nat × (Nat × List Nat),
        q ∈ ([] : List (Nat × (Nat × List Nat))) → False := by simp
    have : p = (weekStartOf (currentTime - 0 * SECONDS_PER_WEEK), (0, List.replicate 7 0)) ∨
        p = (weekStartOf (currentTime - 1 * SECONDS_PER_WEEK), (0, List.replicate 7 0)) ∨
        p = (weekStartOf (currentTime - 2 * SECONDS_PER_WEEK), (0, List.replicate 7 0)) ∨
        p = (weekStartOf (currentTime - 3 * SECONDS_PER_WEEK), (0, List.replicate 7 0)) := by
      rcases hstep _ _ _ hp with h | hp2
      · right; right; right; exact h
      rcases hstep _ _ _ hp2 with h | hp3
      · right; right; left; exact h
      rcases hstep _ _ _ hp3 with h | hp4
      · right; left; exact h
      rcases hstep _ _ _ hp4 with h | hp5
      · left; exact h
      · exact absurd hp5 (by simp)
    rcases this with rfl | rfl | rfl | rfl <;>
      exact ⟨weekStartOf_mod _, by simp, by simp, by simp⟩
  · simp

theorem mapLookup_none_not_mem {κ : Type} [DecidableEq κ] {β : Type}
    {l : List (κ × β)} {k : κ} (h : mapLookup k l = none) : k ∉ l.map Prod.fst := by
  induction l with
  | nil => simp
  | cons p rest ih =>
    simp only [mapLookup] at h
    by_cases hk : p.1 = k
    · rw [if_pos hk] at h
      exact absurd h (by simp)
    · rw [if_neg hk] at h
      simp only [List.map_cons, List.mem_cons]
      rintro (hc | hc)
      · exact hk hc.symm
      · exact ih h hc

theorem bucketWF_insert_empty {m : List (Nat × (Nat × List Nat))} {done : List Nat}
    (h : BucketWF m done) (t : Nat)
    (hnone : mapLookup (weekStartOf t) m = none) :
    BucketWF (mapSet m (weekStartOf t) (0, List.replicate 7 0)) done := by
  obtain ⟨hnd, hfacts, hcover⟩ := h
  have hnotmem := mapLookup_none_not_mem hnone
  refine ⟨nodup_keys_mapSet _ _ hnd, ?_, ?_⟩
  · intro p hp
    rcases (mem_mapSet_iff hnd _ _ p).mp hp with rfl | ⟨hpm, hne⟩
    · refine ⟨weekStartOf_mod t, by simp, by simp, ?_⟩
      have : done.filter (fun u => decide (weekStartOf u = weekStartOf t)) = [] := by
        apply List.filter_eq_nil_iff.mpr
        intro u hu
        simp only [decide_eq_true_eq]
        intro hc
        exact hnotmem (hc ▸ hcover u hu)
      simp [this]
    · exact hfacts p hpm
  · intro u hu
    rw [keys_mapSet]
    by_cases hk : weekStartOf t ∈ m.map Prod.fst
    · rw [if_pos hk]; exact hcover u hu
    · rw [if_neg hk]
      exact List.mem_append_left _ (hcover u hu)

theorem bucketWF_update {m : List (Nat × (Nat × List Nat))} {done : List Nat}
    (h : BucketWF m done) (t : Nat) (wk : Nat × List Nat)
    (hsome : mapLookup (weekStartOf t) m = some wk) :
    BucketWF
      (mapSet m (weekStartOf t)
        (wk.1 + 1, wk.2.set (dayOfWeekUTC t) (wk.2.getD (dayOfWeekUTC t) 0 + 1)))
      (done ++ [t]) := by
  obtain ⟨hnd, hfacts, hcover⟩ := h
  have hmem : (weekStartOf t, wk) ∈ m := mapLookup_mem hsome
  obtain ⟨halign, hlen, hsum, hcount⟩ := hfacts _ hmem
  simp only at halign hlen hsum hcount
  refine ⟨nodup_keys_mapSet _ _ hnd, ?_, ?_⟩
  · intro p hp
    rcases (mem_mapSet_iff hnd _ _ p).mp hp with rfl | ⟨hpm, hne⟩
    · refine ⟨weekStartOf_mod t, ?_, ?_, ?_⟩
      · simpa using hlen
      · have hd : dayOfWeekUTC t < wk.2.length := by rw [hlen]; exact dayOfWeekUTC_lt t
        have hss := sum_set_succ wk.2 (dayOfWeekUTC t) hd
        simp only [List.getD] at hss ⊢
        rw [hss, hsum]
      · have hfil : (done ++ [t]).filter (fun u => decide (weekStartOf u = weekStartOf t)) =
            done.filter (fun u => decide (weekStartOf u = weekStartOf t)) ++ [t] := by
          rw [List.filter_append]
          simp
        simp only [hfil, List.length_append, List.length_singleton]
        omega
    · obtain ⟨ha, hl, hs, hc⟩ := hfacts p hpm
      refine ⟨ha, hl, hs, ?_⟩
      have hfil : (done ++ [t]).filter (fun u => decide (weekStartOf u = p.1)) =
          done.filter (fun u => decide (weekStartOf u = p.1)) := by
        rw [List.filter_append]
        have hone : [t].filter (fun u => decide (weekStartOf u = p.1)) = [] := by
          apply List.filter_eq_nil_iff.mpr
          intro a ha2
          rcases List.mem_singleton.mp ha2 with rfl
          simp only [decide_eq_true_eq]
          exact fun hc2 => hne hc2.symm
        rw [hone, List.append_nil]
      rw [hfil]
      exact hc
  · intro u hu
    have hkeys : (mapSet m (weekStartOf t)
        (wk.1 + 1, wk.2.set (dayOfWeekUTC t) (wk.2.getD (dayOfWeekUTC t) 0 + 1))).map
          Prod.fst = m.map Prod.fst := by
      rw [keys_mapSet, if_pos (List.mem_map_of_mem Prod.fst hmem)]
    rw [hkeys]
    rcases List.mem_append.mp hu with hu | hu
    · exact hcover u hu
    · rcases List.mem_singleton.mp hu with rfl
      exact List.mem_map_of_mem Prod.fst hmem

theorem bucketWF_recordCommit {m : List (Nat × (Nat × List Nat))} {done : List Nat}
    (h : BucketWF m done) (t : Nat) :
    BucketWF (recordCommit m t) (done ++ [t]) := by
  unfold recordCommit
  cases hl : mapLookup (weekStartOf t) m with
  | some wk =>
    simp only [hl, Option.isNone_some, Bool.false_eq_true, if_false]
    exact bucketWF_update h t wk hl
  | none =>
    simp only [hl, Option.isNone_none, if_true]
    have h1 := bucketWF_insert_empty h t hl
    rw [mapLookup_mapSet]
    have h2 := bucketWF_update h1 t (0, List.replicate 7 0) (mapLookup_mapSet _ _ _)
    simpa using h2

theorem bucketWF_fold (dates : List (Option Nat)) :
    ∀ (m : List (Nat × (Nat × List Nat))) (done : List Nat), BucketWF m done →
      BucketWF
        (dates.foldl (fun m d => match d with | none => m | some t => recordCommit m t) m)
        (done ++ dates.filterMap id) := by
  induction dates with
  | nil => intro m done h; simpa using h
  | cons d rest ih =>
    intro m done h
    cases d with
    | none =>
      simpa using ih m done h
    | some t =>
      have := ih (recordCommit m t) (done ++ [t]) (bucketWF_recordCommit h t)
      simpa using this

/-- C6: for any fixed list of commit timestamps, the alternative
commit-activity computation produces week buckets aligned to the Unix
epoch in 7-day multiples, where each week's `total` counts exactly the
commits with timestamp in `[weekStart, weekStart + 7 days)`, each week's
7-element `days` array sums to its `total`, and the weeks are ordered
oldest to newest.  (`dates` are the commit author dates in Unix seconds,
`none` marking a commit without one, which the source skips.) -/
theorem alternative_bucketing_correct (env : GitHubEnv) (st : St)
    (dates : List (Option Nat))
    (hc : env.commitsResp st.commitsCalls = Except.ok dates)
    (hne : ¬ dates.length = 0)
    (hnow : 3 * SECONDS_PER_WEEK ≤ st.now / 1000) :
    ∃ r, (getCommitActivityAlternative env st).1 = Except.ok r ∧
      (∀ w ∈ r, w.week % SECONDS_PER_WEEK = 0 ∧ w.days.length = 7 ∧
        w.days.sum = w.total ∧
        w.total = ((dates.filterMap id).filter
          (fun t => decide (w.week ≤ t ∧ t < w.week + SECONDS_PER_WEEK))).length) ∧
      (r.map CommitActivity.week).Pairwise (fun a b => a ≤ b) := by
  refine ⟨bucketCommits (st.now / 1000) dates, ?_, ?_, ?_⟩
  · unfold getCommitActivityAlternative
    simp only [hc]
    rw [if_neg hne]
  · intro w hw
    unfold bucketCommits at hw
    rw [List.mem_mergeSort] at hw
    obtain ⟨p, hp, hpe⟩ := List.mem_map.mp hw
    have hwf := bucketWF_fold dates (initWeeks (st.now / 1000)) []
      (bucketWF_initWeeks (st.now / 1000))
    simp only [List.nil_append] at hwf
    obtain ⟨halign, hlen, hsum, hcount⟩ := hwf.2.1 p hp
    subst hpe
    refine ⟨halign, hlen, hsum, ?_⟩
    show p.2.1 = _
    rw [hcount]
    congr 1
    apply List.filter_congr
    intro t ht
    rw [decide_eq_decide]
    exact weekStartOf_eq_iff t p.1 halign
  · unfold bucketCommits
    have hs := @List.sorted_mergeSort _
      (fun a b : CommitActivity => decide (a.week ≤ b.week))
      (fun a b c hab hbc => by
        simp only [decide_eq_true_eq] at *
        omega)
      (fun a b => by
        by_cases h : a.week ≤ b.week
        · simp [h]
        · simp [h]; omega)
      ((dates.foldl (fun m d => match d with | none => m | some t => recordCommit m t)
          (initWeeks (st.now / 1000))).map (fun p => CommitActivity.mk p.1 p.2.1 p.2.2))
    rw [List.pairwise_map]
    exact hs.imp (by intro a b hab; simpa using hab)

/-- An authenticated environment whose statistics endpoint rejects with a
server error and whose commit listing yields three commits across three
distinct weeks (one commit lacking an author date). -/
def demoEnvCommits : GitHubEnv :=
  { authenticated := true
    rateResp := fun _ => Except.ok ⟨5000, 4999, 0⟩
    repoResp := fun _ => Except.error ⟨500, "boom", false⟩
    contributorsResp := fun _ => Except.ok []
    statsResp := fun _ => StatsResp.reject ⟨500, "boom", false⟩
    commitsResp := fun _ =>
      Except.ok [some 1699900000, some 1699300000, none, some 1698700000]
    contentResp := fun _ => Except.error ⟨500, "boom", false⟩ }

/-- Witness for C6 at three concrete commit timestamps spanning three
distinct weeks. -/
theorem alternative_bucketing_correct_witness :
    ¬ ([some 1699900000, some 1699300000, none,
        (some 1698700000 : Option Nat)].length = 0) ∧
    ∃ r, (getCommitActivityAlternative demoEnvCommits
        (initialSt 1700000000000)).1 = Except.ok r ∧
      (∀ w ∈ r, w.week % SECONDS_PER_WEEK = 0 ∧ w.days.length = 7 ∧
        w.days.sum = w.total ∧
        w.total = (([some 1699900000, some 1699300000, none,
            (some 1698700000 : Option Nat)].filterMap id).filter
          (fun t => decide (w.week ≤ t ∧ t < w.week + SECONDS_PER_WEEK))).length) ∧
      (r.map CommitActivity.week).Pairwise (fun a b => a ≤ b) :=
  ⟨by decide,
    alternative_bucketing_correct demoEnvCommits (initialSt 1700000000000)
      [some 1699900000, some 1699300000, none, some 1698700000]
      rfl (by decide) (by decide)⟩

/-! ### getRepoDetails, getContributors, handleApiError (github.ts) -/

/-- `handleApiError(error, entityName)` (lines 868-892): the message of the
`Error` it throws.  `auth` is the current `isAuthenticated()`. -/
def handleApiError (e : ApiError) (entityName : String) (auth : Bool) : String :=
  if isRateLimitError e then
    "GitHub API rate limit exceeded. " ++
      (if auth then "Try again later."
       else "Add a GITHUB_TOKEN to increase your rate limit from 60 to 5,000 requests per hour.")
  else if e.status = 404 then
    "The requested " ++ entityName ++
      " could not be found. The repository may be private or does not exist."
  else if e.status = 422 then
    "Invalid request when fetching " ++ entityName ++
      ". Please check the repository name and owner."
  else
    "Unable to fetch " ++ entityName ++ ". GitHub API may be unavailable or rate limited."

/-- Normalization of a raw repository payload into `RepoDetails`
(lines 198-214); `x || default` treats `null` and the empty string as
missing. -/
def normalizeRepo (raw : RawRepo) : RepoDetails :=
  { owner := raw.ownerLogin
    name := raw.name
    fullName := raw.fullName
    description := (match raw.description with
      | some s => s
      | none => "")
    stars := raw.stargazersCount
    forks := raw.forksCount
    watchers := raw.watchersCount
    primaryLanguage := (match raw.language with
      | some s => if s = "" then "Not specified" else s
      | none => "Not specified")
    license := (match raw.licenseName with
      | some s => if s = "" then "No license" else s
      | none => "No license")
    updatedAt := raw.updatedAt
    createdAt := raw.createdAt
    url := raw.htmlUrl
    defaultBranch := raw.defaultBranch
    size := raw.size
    openIssuesCount := raw.openIssuesCount }

/-- `getRepoDetails(owner, repo)` (lines 174-262): serve from `repoCache`
when possible; otherwise check the quota first via `getRateLimit` (a
failure there is caught and routed through `handleApiError`, as is any
rejection of the repository fetch; the UNGH.cc fallback is disabled by
`ENABLE_UNGH_FALLBACK = false`); on success normalize, cache and return. -/
def getRepoDetails (env : GitHubEnv) (owner repo : String) (st : St) :
    Except ApiError RepoDetails × St :=
  let cacheKey := "repo-details:" ++ owner ++ "/" ++ repo
  let hit := st.repoCache.get cacheKey st.now
  let st := { st with repoCache := hit.2 }
  match hit.1.bind CacheVal.asRepoD with
  | some cached => (Except.ok cached, st)
  | none =>
    match getRateLimit env st with
    | (Except.error e, st1) =>
      (Except.error ⟨0, handleApiError e "repository details" env.authenticated, false⟩, st1)
    | (Except.ok rateLimit, st1) =>
      let _warn := isApproachingRateLimit rateLimit.remaining rateLimit.limit
      let st2 := { st1 with repoCalls := st1.repoCalls + 1 }
      match env.repoResp st1.repoCalls with
      | Except.ok raw =>
        let result := normalizeRepo raw
        let st3 := { st2 with repoCache := (st2.repoCache.set cacheKey
          (CacheVal.repoD result) none st2.now) }
        (Except.ok result, st3)
      | Except.error e =>
        (Except.error ⟨0, handleApiError e "repository details" env.authenticated, false⟩, st2)

/-- Normalization of one raw contributor (lines 288-294). -/
def normalizeContributor (owner : String) (c : RawContributor) : Contributor :=
  { login := (match c.login with
      | some s => if s = "" then "anonymous" else s
      | none => "anonymous")
    id := (match c.id with
      | some i => i
      | none => 0)
    avatarUrl := (match c.avatarUrl with
      | some s => if s = "" then "https://avatars.githubusercontent.com/u/0" else s
      | none => "https://avatars.githubusercontent.com/u/0")
    url := (match c.htmlUrl with
      | some s => if s = "" then "https://github.com/" ++ owner else s
      | none => "https://github.com/" ++ owner)
    contributions := c.contributions }

/-- `getContributors(owner, repo)` (lines 264-351): serve from `repoCache`
when possible; an empty payload returns `[]` without caching; a rate-limit
rejection is rethrown as-is (`throw error`); every other rejection (404
included) degrades to an empty list. -/
def getContributors (env : GitHubEnv) (owner repo : String) (st : St) :
    Except ApiError (List Contributor) × St :=
  let cacheKey := "contributors:" ++ owner ++ "/" ++ repo
  let hit := st.repoCache.get cacheKey st.now
  let st := { st with repoCache := hit.2 }
  match hit.1.bind CacheVal.asContribs with
  | some cached => (Except.ok cached, st)
  | none =>
    let st1 := { st with contributorCalls := st.contributorCalls + 1 }
    match env.contributorsResp st.contributorCalls with
    | Except.ok data =>
      if data.length = 0 then (Except.ok [], st1)
      else
        let result := data.map (normalizeContributor owner)
        let st2 := { st1 with repoCache := (st1.repoCache.set cacheKey
          (CacheVal.contribs result) none st1.now) }
        (Except.ok result, st2)
    | Except.error e =>
      if isRateLimitError e then (Except.error e, st1)
      else (Except.ok [], st1)

/-! ### getFileContent (github.ts lines 726-814) -/

/-- The message of the error thrown by `getFileContent` once its
rate-limit retry budget is exhausted. -/
def rateLimitFileMessage (auth : Bool) : String :=
  "GitHub API rate limit exceeded when fetching file content. " ++
    (if auth then "Try again later."
     else "Add a GitHub token to increase your rate limit from 60 to 5,000 requests per hour.")

/-- `getFileContent(owner, repo, path, retryCount = 0)`: returns the file
text on success and a `//`-prefixed placeholder string on every failure
except rate-limit exhaustion, which throws.  A directory response and a
missing `content` property throw plain errors inside the `try`, which the
function own `catch` then renders as `// Error loading file content: ...`
placeholders. -/
def getFileContent (env : GitHubEnv) (owner repo path : String)
    (retryCount : Nat) (st : St) : Except ApiError String × St :=
  let cacheKey := "file-content:" ++ owner ++ "/" ++ repo ++ ":" ++ path
  let hit := st.contentCache.get cacheKey st.now
  let st := { st with contentCache := hit.2 }
  match hit.1.bind CacheVal.asText with
  | some cached => (Except.ok cached, st)
  | none =>
    if shouldSkipPath path then
      (Except.ok ("// File skipped: " ++ path ++ " (likely binary or too large)"), st)
    else
      let st1 := { st with contentCalls := st.contentCalls + 1 }
      match env.contentResp st.contentCalls with
      | Except.ok (ContentData.dir items) =>
        (Except.ok ("// Error loading file content: " ++
          "Path points to a directory, not a file"), st1)
      | Except.ok (ContentData.file f) =>
        if f.size > 2 * 1024 * 1024 then
          (Except.ok ("// File too large to display: " ++ path ++ " (" ++
            formatSize f.size ++ "). Maximum size limit is 2MB."), st1)
        else
          match f.content with
          | none =>
            (Except.ok ("// Error loading file content: " ++
              "File content not available"), st1)
          | some decodedContent =>
            let st2 := { st1 with contentCache := (st1.contentCache.set cacheKey
              (CacheVal.text decodedContent) none st1.now) }
            (Except.ok decodedContent, st2)
      | Except.error e =>
        if isRateLimitError e then
          match getRateLimit env st1 with
          | (Except.ok rateLimit, st2) =>
            let timeToReset := rateLimit.reset - st2.now / 1000
            if h : retryCount < 2 ∧ timeToReset < 30 then
              getFileContent env owner repo path (retryCount + 1)
                (st2.sleep ((timeToReset + 1) * 1000))
            else
              (Except.error ⟨0, rateLimitFileMessage env.authenticated, false⟩, st2)
          | (Except.error _, st2) =>
            (Except.error ⟨0, rateLimitFileMessage env.authenticated, false⟩, st2)
        else if e.status = 404 then
          (Except.ok ("// File not found: " ++ path), st1)
        else
          (Except.ok ("// Error loading file content: " ++
            (if e.message = "" then "Unknown error" else e.message)), st1)
termination_by 2 - retryCount
decreasing_by omega

/-! ### Not-found handling (C5) -/

theorem isRateLimitError_of_404 {e : ApiError} (h : e.status = 404) :
    isRateLimitError e = false := by
  simp [isRateLimitError, h]

theorem getRepoContents_404 (env : GitHubEnv) (owner repo path : String) (ms : Nat)
    (st : St) (e : ApiError)
    (he : env.contentResp st.contentCalls = Except.error e) (h404 : e.status = 404)
    (hskip : shouldSkipPath path = false)
    (hkey : mapLookup ("repo-contents:" ++ owner ++ "/" ++ repo ++ ":" ++ path)
      st.contentCache.cache = none) :
    (getRepoContents env owner repo path ms 0 st).1 = Except.ok [] := by
  rw [getRepoContents]
  simp only [ApiCache.get_of_lookup_none st.now hkey, Option.bind, hskip,
    Bool.false_eq_true, if_false, he, isRateLimitError_of_404 h404, h404, if_pos]

theorem getContributors_404 (env : GitHubEnv) (owner repo : String) (st : St)
    (e : ApiError)
    (he : env.contributorsResp st.contributorCalls = Except.error e)
    (h404 : e.status = 404)
    (hkey : mapLookup ("contributors:" ++ owner ++ "/" ++ repo) st.repoCache.cache = none) :
    (getContributors env owner repo st).1 = Except.ok [] := by
  unfold getContributors
  simp only [ApiCache.get_of_lookup_none st.now hkey, Option.bind, he,
    isRateLimitError_of_404 h404, Bool.false_eq_true, if_false]

theorem getRateLimit_miss (env : GitHubEnv) (st : St) (raw : RawRate)
    (hkey : mapLookup "rate-limit" st.rateLimitCache.cache = none)
    (hok : env.rateResp st.rateCalls = Except.ok raw) :
    getRateLimit env st =
      (Except.ok ⟨raw.limit, raw.remaining, raw.reset, env.authenticated⟩,
        { st with rateCalls := st.rateCalls + 1,
                  rateLimitCache := (({ st with rateCalls := st.rateCalls + 1 } :
                    St).rateLimitCache.set "rate-limit"
                    (CacheVal.rate ⟨raw.limit, raw.remaining, raw.reset,
                      env.authenticated⟩) none st.now) }) := by
  unfold getRateLimit
  simp only [ApiCache.get_of_lookup_none st.now hkey, Option.bind, hok]

theorem getRepoDetails_404 (env : GitHubEnv) (owner repo : String) (st : St)
    (e : ApiError) (raw : RawRate)
    (he : env.repoResp st.repoCalls = Except.error e) (h404 : e.status = 404)
    (hrate : env.rateResp st.rateCalls = Except.ok raw)
    (hkey : mapLookup ("repo-details:" ++ owner ++ "/" ++ repo) st.repoCache.cache = none)
    (hrlkey : mapLookup "rate-limit" st.rateLimitCache.cache = none) :
    (getRepoDetails env owner repo st).1 = Except.error
      ⟨0, "The requested repository details could not be found. The repository may be private or does not exist.",
        false⟩ := by
  unfold getRepoDetails
  simp only [ApiCache.get_of_lookup_none st.now hkey, Option.bind]
  rw [getRateLimit_miss env st raw hrlkey hrate]
  simp only [he, handleApiError, isRateLimitError_of_404 h404, h404,
    Bool.false_eq_true, if_false, if_pos]
  rfl

theorem getFileContent_404 (env : GitHubEnv) (owner repo path : String)
    (st : St) (e : ApiError)
    (he : env.contentResp st.contentCalls = Except.error e) (h404 : e.status = 404)
    (hskip : shouldSkipPath path = false)
    (hkey : mapLookup ("file-content:" ++ owner ++ "/" ++ repo ++ ":" ++ path)
      st.contentCache.cache = none) :
    (getFileContent env owner repo path 0 st).1 =
      Except.ok ("// File not found: " ++ path) := by
  rw [getFileContent]
  simp only [ApiCache.get_of_lookup_none st.now hkey, Option.bind, hskip,
    Bool.false_eq_true, if_false, he, isRateLimitError_of_404 h404, h404, if_pos]

/-- An environment in which every resource endpoint rejects with HTTP 404. -/
def demoEnvNotFound : GitHubEnv :=
  { authenticated := false
    rateResp := fun _ => Except.ok ⟨60, 59, 0⟩
    repoResp := fun _ => Except.error ⟨404, "Not Found", false⟩
    contributorsResp := fun _ => Except.error ⟨404, "Not Found", false⟩
    statsResp := fun _ => StatsResp.reject ⟨404, "Not Found", false⟩
    commitsResp := fun _ => Except.error ⟨404, "Not Found", false⟩
    contentResp := fun _ => Except.error ⟨404, "Not Found", false⟩ }

/-- Counterexample for C5 as stated: on a not-found rejection,
`getFileContent` does not surface a `NotFound` error — it resolves
successfully with the placeholder string `// File not found: app.ts`. -/
theorem file_content_404_is_not_an_error :
    (getFileContent demoEnvNotFound "octo" "demo" "app.ts" 0 (initialSt 500000)).1 =
      Except.ok "// File not found: app.ts" ∧
    (getFileContent demoEnvNotFound "octo" "demo" "app.ts" 0
      (initialSt 500000)).1.isOk = true := by
  have h := getFileContent_404 demoEnvNotFound "octo" "demo" "app.ts"
    (initialSt 500000) ⟨404, "Not Found", false⟩ rfl rfl (by decide) rfl
  refine ⟨h, ?_⟩
  rw [h]
  rfl

/-- C5 (amended): on a not-found rejection, the read-many operations
`getRepoContents` and `getContributors` return an empty collection, and
the read-one operation `getRepoDetails` surfaces a NotFound error — but
the other read-one operation, `getFileContent`, returns the placeholder
string `// File not found: <path>` instead of surfacing an error. -/
theorem notfound_handling (env : GitHubEnv) (owner repo path : String) (st : St) :
    (∀ e, env.contentResp st.contentCalls = Except.error e → e.status = 404 →
      shouldSkipPath path = false →
      mapLookup ("repo-contents:" ++ owner ++ "/" ++ repo ++ ":" ++ path)
        st.contentCache.cache = none →
      (getRepoContents env owner repo path 1000 0 st).1 = Except.ok [])
    ∧ (∀ e, env.contributorsResp st.contributorCalls = Except.error e →
      e.status = 404 →
      mapLookup ("contributors:" ++ owner ++ "/" ++ repo) st.repoCache.cache = none →
      (getContributors env owner repo st).1 = Except.ok [])
    ∧ (∀ e raw, env.repoResp st.repoCalls = Except.error e → e.status = 404 →
      env.rateResp st.rateCalls = Except.ok raw →
      mapLookup ("repo-details:" ++ owner ++ "/" ++ repo) st.repoCache.cache = none →
      mapLookup "rate-limit" st.rateLimitCache.cache = none →
      (getRepoDetails env owner repo st).1 = Except.error
        ⟨0, "The requested repository details could not be found. The repository may be private or does not exist.",
          false⟩)
    ∧ (∀ e, env.contentResp st.contentCalls = Except.error e → e.status = 404 →
      shouldSkipPath path = false →
      mapLookup ("file-content:" ++ owner ++ "/" ++ repo ++ ":" ++ path)
        st.contentCache.cache = none →
      (getFileContent env owner repo path 0 st).1 =
        Except.ok ("// File not found: " ++ path)) := by
  refine ⟨?_, ?_, ?_, ?_⟩
  · intro e he h404 hskip hkey
    exact getRepoContents_404 env owner repo path 1000 st e he h404 hskip hkey
  · intro e he h404 hkey
    exact getContributors_404 env owner repo st e he h404 hkey
  · intro e raw he h404 hrate hkey hrlkey
    exact getRepoDetails_404 env owner repo st e raw he h404 hrate hkey hrlkey
  · intro e he h404 hskip hkey
    exact getFileContent_404 env owner repo path st e he h404 hskip hkey

/-- Witness for C5: all four not-found behaviors at concrete inputs on a
fresh state. -/
theorem notfound_handling_witness :
    (getRepoContents demoEnvNotFound "octo" "demo" "src" 1000 0
      (initialSt 500000)).1 = Except.ok [] ∧
    (getContributors demoEnvNotFound "octo" "demo" (initialSt 500000)).1 =
      Except.ok [] ∧
    (getRepoDetails demoEnvNotFound "octo" "demo" (initialSt 500000)).1 =
      Except.error
        ⟨0, "The requested repository details could not be found. The repository may be private or does not exist.",
          false⟩ ∧
    (getFileContent demoEnvNotFound "octo" "demo" "src/main.ts" 0
      (initialSt 500000)).1 = Except.ok ("// File not found: " ++ "src/main.ts") := by
  have h := notfound_handling demoEnvNotFound "octo" "demo" "src" (initialSt 500000)
  have h2 := notfound_handling demoEnvNotFound "octo" "demo" "src/main.ts" (initialSt 500000)
  exact ⟨h.1 ⟨404, "Not Found", false⟩ rfl rfl (by decide) rfl,
    h.2.1 ⟨404, "Not Found", false⟩ rfl rfl rfl,
    h.2.2.1 ⟨404, "Not Found", false⟩ ⟨60, 59, 0⟩ rfl rfl rfl rfl rfl,
    h2.2.2.2 ⟨404, "Not Found", false⟩ rfl rfl (by decide) rfl⟩

/-! ### Repeated getRepoDetails within the TTL window (C7) -/

instance {ε α : Type} [DecidableEq ε] [DecidableEq α] : DecidableEq (Except ε α) :=
  fun a b =>
    match a, b with
    | .ok x, .ok y =>
      if h : x = y then .isTrue (by rw [h]) else .isFalse (fun hc => by cases hc; exact h rfl)
    | .error x, .error y =>
      if h : x = y then .isTrue (by rw [h]) else .isFalse (fun hc => by cases hc; exact h rfl)
    | .ok _, .error _ => .isFalse (fun hc => by cases hc)
    | .error _, .ok _ => .isFalse (fun hc => by cases hc)

/-- A cold `getRepoDetails` call: one rate-limit request and one
repository request, then the normalized result is cached. -/
theorem getRepoDetails_cold (env : GitHubEnv) (owner repo : String) (st : St)
    (raw : RawRepo) (rr : RawRate)
    (hkey : mapLookup ("repo-details:" ++ owner ++ "/" ++ repo) st.repoCache.cache = none)
    (hrlkey : mapLookup "rate-limit" st.rateLimitCache.cache = none)
    (hrate : env.rateResp st.rateCalls = Except.ok rr)
    (hrepo : env.repoResp st.repoCalls = Except.ok raw) :
    getRepoDetails env owner repo st =
      (Except.ok (normalizeRepo raw),
        { st with
            rateCalls := st.rateCalls + 1,
            rateLimitCache := (st.rateLimitCache.set "rate-limit"
              (CacheVal.rate ⟨rr.limit, rr.remaining, rr.reset, env.authenticated⟩)
              none st.now),
            repoCalls := st.repoCalls + 1,
            repoCache := (st.repoCache.set ("repo-details:" ++ owner ++ "/" ++ repo)
              (CacheVal.repoD (normalizeRepo raw)) none st.now) }) := by
  unfold getRepoDetails
  simp only [ApiCache.get_of_lookup_none st.now hkey, Option.bind]
  rw [getRateLimit_miss env st rr hrlkey hrate]
  simp only [hrepo]

/-- A `getRepoDetails` call that hits a valid cache entry returns it
immediately with no network call and no state change whatsoever. -/
theorem getRepoDetails_hit (env : GitHubEnv) (owner repo : String) (st : St)
    (d : RepoDetails) (entry : CacheEntry CacheVal)
    (hkey : mapLookup ("repo-details:" ++ owner ++ "/" ++ repo) st.repoCache.cache =
      some entry)
    (hfresh : ¬ st.now > entry.expiresAt)
    (hdata : entry.data = CacheVal.repoD d) :
    getRepoDetails env owner repo st = (Except.ok d, st) := by
  unfold getRepoDetails
  simp only [ApiCache.get, hkey, hfresh, if_false, Option.some_bind, hdata,
    CacheVal.asRepoD]

/-- A repository payload and a successful environment used as concrete
inputs. -/
def demoRawRepo : RawRepo :=
  ⟨"octo", "demo", "octo/demo", some "A demo repository", 42, 7, 42,
   some "TypeScript", some "MIT License", "2024-01-02T03:04:05Z",
   "2020-01-02T03:04:05Z", "https://github.com/octo/demo", "main", 1234, 5⟩

def demoEnvOk : GitHubEnv :=
  { authenticated := true
    rateResp := fun _ => Except.ok ⟨5000, 4999, 600⟩
    repoResp := fun _ => Except.ok demoRawRepo
    contributorsResp := fun _ => Except.ok []
    statsResp := fun _ => StatsResp.pending
    commitsResp := fun _ => Except.ok []
    contentResp := fun _ => Except.error ⟨500, "boom", false⟩ }

/-- Counterexample for C7 as stated: two consecutive `getRepoDetails`
calls on a fresh state (the second within the TTL window) do return equal
successful results, but they issue two network requests in total — one to
the rate-limit endpoint and one to the repository endpoint — not exactly
one. -/
theorem repo_details_two_network_calls :
    ((getRepoDetails demoEnvOk "octo" "demo" (initialSt 500000)).1 =
      (getRepoDetails demoEnvOk "octo" "demo"
        (getRepoDetails demoEnvOk "octo" "demo" (initialSt 500000)).2).1) ∧
    (getRepoDetails demoEnvOk "octo" "demo" (initialSt 500000)).1.isOk = true ∧
    ((getRepoDetails demoEnvOk "octo" "demo"
        (getRepoDetails demoEnvOk "octo" "demo" (initialSt 500000)).2).2.repoCalls +
      (getRepoDetails demoEnvOk "octo" "demo"
        (getRepoDetails demoEnvOk "octo" "demo" (initialSt 500000)).2).2.rateCalls +
      (getRepoDetails demoEnvOk "octo" "demo"
        (getRepoDetails demoEnvOk "octo" "demo" (initialSt 500000)).2).2.contentCalls +
      (getRepoDetails demoEnvOk "octo" "demo"
        (getRepoDetails demoEnvOk "octo" "demo" (initialSt 500000)).2).2.statsCalls +
      (getRepoDetails demoEnvOk "octo" "demo"
        (getRepoDetails demoEnvOk "octo" "demo" (initialSt 500000)).2).2.commitsCalls +
      (getRepoDetails demoEnvOk "octo" "demo"
        (getRepoDetails demoEnvOk "octo" "demo" (initialSt 500000)).2).2.contributorCalls)
      = 2 := by
  refine ⟨?_, ?_, ?_⟩ <;> decide

/-- C7 (amended): two consecutive `getRepoDetails(owner, repo)` calls
within the 10-minute TTL window issue exactly one repo-details network
call — the first (cold) call also issues exactly one rate-limit-endpoint
check, for two HTTP requests in total — and return structurally equal
results; the second call is a cache hit that performs no network call of
any kind and has no side effects at all. -/
theorem repo_details_caching (env : GitHubEnv) (owner repo : String)
    (t0 δ : Nat) (raw : RawRepo) (rr : RawRate)
    (hrate : env.rateResp 0 = Except.ok rr)
    (hrepo : env.repoResp 0 = Except.ok raw)
    (hδ : δ ≤ 10 * 60 * 1000) :
    (getRepoDetails env owner repo (initialSt t0)).1 = Except.ok (normalizeRepo raw) ∧
    (getRepoDetails env owner repo (initialSt t0)).2.repoCalls = 1 ∧
    (getRepoDetails env owner repo (initialSt t0)).2.rateCalls = 1 ∧
    (getRepoDetails env owner repo (initialSt t0)).2.contentCalls = 0 ∧
    (getRepoDetails env owner repo (initialSt t0)).2.statsCalls = 0 ∧
    (getRepoDetails env owner repo (initialSt t0)).2.commitsCalls = 0 ∧
    (getRepoDetails env owner repo (initialSt t0)).2.contributorCalls = 0 ∧
    getRepoDetails env owner repo
        { (getRepoDetails env owner repo (initialSt t0)).2 with now := t0 + δ } =
      (Except.ok (normalizeRepo raw),
        { (getRepoDetails env owner repo (initialSt t0)).2 with now := t0 + δ }) := by
  have hcold := getRepoDetails_cold env owner repo (initialSt t0) raw rr rfl rfl hrate hrepo
  rw [hcold]
  refine ⟨rfl, rfl, rfl, rfl, rfl, rfl, rfl, ?_⟩
  apply getRepoDetails_hit
  · show mapLookup ("repo-details:" ++ owner ++ "/" ++ repo)
      (mapSet [] ("repo-details:" ++ owner ++ "/" ++ repo) _) = _
    rw [mapLookup_mapSet]
  · show ¬ t0 + δ > t0 + (10 * 60 * 1000)
    omega
  · rfl

/-- Witness for C7 (amended) at a concrete environment: one repo call, one
rate-limit call, then a pure cache hit 60 s later. -/
theorem repo_details_caching_witness :
    (getRepoDetails demoEnvOk "octo" "demo" (initialSt 500000)).1 =
      Except.ok (normalizeRepo demoRawRepo) ∧
    (getRepoDetails demoEnvOk "octo" "demo" (initialSt 500000)).2.repoCalls = 1 ∧
    (getRepoDetails demoEnvOk "octo" "demo" (initialSt 500000)).2.rateCalls = 1 ∧
    getRepoDetails demoEnvOk "octo" "demo"
        { (getRepoDetails demoEnvOk "octo" "demo" (initialSt 500000)).2 with
            now := 500000 + 60000 } =
      (Except.ok (normalizeRepo demoRawRepo),
        { (getRepoDetails demoEnvOk "octo" "demo" (initialSt 500000)).2 with
            now := 500000 + 60000 }) := by
  have h := repo_details_caching demoEnvOk "octo" "demo" 500000 60000 demoRawRepo
    ⟨5000, 4999, 600⟩ rfl rfl (by decide)
  exact ⟨h.1, h.2.1, h.2.2.1, h.2.2.2.2.2.2.2⟩

/-! ### buildFileTree (github.ts lines 627-724) -/

/-- The message thrown by `buildFileTree` once its rate-limit retry budget
is exhausted (reachable only for a raw `status === 403` error, which
`getRepoContents` never rethrows — it throws plain `Error`s). -/
def rateLimitTreeMessage (path : String) (auth : Bool) : String :=
  "GitHub API rate limit exceeded when building file tree for path: " ++ path ++ ". " ++
    (if auth then "Try again later."
     else "Add a GitHub token to increase your rate limit from 60 to 5,000 requests per hour.")

mutual

/-- `buildFileTree(owner, repo, path, maxDepth = 3, currentDepth = 0,
retryCount = 0)`: serve the level from `contentCache` when possible, stop
at the depth limit, otherwise list the directory and process its items
(see `processTreeItems`), caching the produced level.  `fuel` is an
artificial recursion bound added only for termination; every property
proved below holds for every fuel, and any fuel exceeding the remaining
depth reproduces the source behavior. -/
def buildFileTree (env : GitHubEnv) (fuel : Nat) (owner repo path : String)
    (maxDepth currentDepth retryCount : Nat) (st : St) :
    Except ApiError (List FileContent) × St :=
  match fuel with
  | 0 => (Except.ok [], st)
  | f + 1 =>
    let cacheKey := "file-tree:" ++ owner ++ "/" ++ repo ++ ":" ++ path ++ ":" ++
      toString maxDepth ++ ":" ++ toString currentDepth
    let hit := st.contentCache.get cacheKey st.now
    let st := { st with contentCache := hit.2 }
    match hit.1.bind CacheVal.asFiles with
    | some cached => (Except.ok cached, st)
    | none =>
      if currentDepth ≥ maxDepth then (Except.ok [], st)
      else
        match getRepoContents env owner repo path 1000 0 st with
        | (Except.ok contents, st1) =>
          let lr := processTreeItems env f owner repo maxDepth currentDepth contents 0 [] st1
          let st2 := { lr.2 with contentCache := (lr.2.contentCache.set cacheKey
            (CacheVal.files lr.1) none lr.2.now) }
          (Except.ok lr.1, st2)
        | (Except.error e, st1) =>
          if isRateLimitError e then
            match getRateLimit env st1 with
            | (Except.ok rateLimit, st2) =>
              let timeToReset := rateLimit.reset - st2.now / 1000
              if h : retryCount < 2 ∧ timeToReset < 30 then
                buildFileTree env (f + 1) owner repo path maxDepth currentDepth
                  (retryCount + 1) (st2.sleep ((timeToReset + 1) * 1000))
              else
                (Except.error ⟨0, rateLimitTreeMessage path env.authenticated, false⟩, st2)
            | (Except.error _, st2) =>
              (Except.error ⟨0, rateLimitTreeMessage path env.authenticated, false⟩, st2)
          else (Except.ok [], st1)
termination_by (fuel, 0, 2 - retryCount)

/-- The `for (const item of contents)` loop of `buildFileTree`.
`dirsSeen` counts directories encountered so far, so that the source
condition `item ∈ dirsToProcess` — membership by object identity in the
first 25 directories of the listing — is exactly "`item` is a directory
and fewer than 25 directories precede it".  A directory within the cap is
pushed with the children produced by the recursive call, or with an
explicitly empty `children` array when that call fails; every other item
is pushed unchanged. -/
def processTreeItems (env : GitHubEnv) (fuel : Nat) (owner repo : String)
    (maxDepth currentDepth : Nat) (items : List FileContent) (dirsSeen : Nat)
    (acc : List FileContent) (st : St) : List FileContent × St :=
  match items with
  | [] => (acc, st)
  | item :: rest =>
    if item.type = "dir" then
      if dirsSeen < 25 then
        match buildFileTree env fuel owner repo item.path maxDepth (currentDepth + 1) 0 st with
        | (Except.ok children, st1) =>
          processTreeItems env fuel owner repo maxDepth currentDepth rest (dirsSeen + 1)
            (acc ++ [item.withChildren (some children)]) st1
        | (Except.error _, st1) =>
          processTreeItems env fuel owner repo maxDepth currentDepth rest (dirsSeen + 1)
            (acc ++ [item.withChildren (some [])]) st1
      else
        processTreeItems env fuel owner repo maxDepth currentDepth rest (dirsSeen + 1)
          (acc ++ [item]) st
    else
      processTreeItems env fuel owner repo maxDepth currentDepth rest dirsSeen
        (acc ++ [item]) st
termination_by (fuel, 1, items.length)

end

/-- A throwaway default `FileContent` used only for positional `getD`
indexing in statements. -/
def dfltFile : FileContent := .mk "" "" "" none 0 "" none

/-- The directory-rank of position `j`: how many directories precede it in
the listing.  `item ∈ dirsToProcess` in the source is "`item.type = "dir"`
and its rank is below 25". -/
def dirRank (items : List FileContent) (j : Nat) : Nat :=
  ((items.take j).filter (fun x => decide (x.type = "dir"))).length

theorem dirRank_zero (items : List FileContent) : dirRank items 0 = 0 := by
  simp [dirRank]

theorem dirRank_cons_succ (item : FileContent) (rest : List FileContent) (j : Nat) :
    dirRank (item :: rest) (j + 1) =
      (if item.type = "dir" then 1 else 0) + dirRank rest j := by
  unfold dirRank
  rw [List.take_succ_cons, List.filter_cons]
  by_cases h : item.type = "dir" <;> simp [h, Nat.add_comm]

theorem length_filter_append_single (acc : List FileContent) (x : FileContent)
    (p : FileContent → Bool) :
    ((acc ++ [x]).filter p).length =
      (acc.filter p).length + (if p x then 1 else 0) := by
  rw [List.filter_append]
  by_cases h : p x <;> simp [List.filter_singleton, h]

theorem getD_append_last (acc : List FileContent) (x : FileContent) :
    (acc ++ [x]).getD acc.length dfltFile = x := by
  rw [List.getD_append_right _ _ _ _ (le_refl acc.length)]
  simp

/-- Shape of one level of the tree loop: the output extends `acc` by one
entry per item in order; an item that is not a directory, or a directory
whose rank from `dirsSeen` reaches 25, is kept unchanged; a directory
within the cap is kept with `children := some _`; and the number of
entries carrying children grows by at most the remaining cap budget. -/
theorem processTreeItems_spec (env : GitHubEnv) (fuel : Nat) (owner repo : String)
    (maxDepth currentDepth : Nat) :
    ∀ (items : List FileContent) (dirsSeen : Nat) (acc : List FileContent) (st : St),
      (∀ x ∈ items, x.children = none) →
      (processTreeItems env fuel owner repo maxDepth currentDepth items dirsSeen
          acc st).1.length = acc.length + items.length ∧
      (∀ j, j < acc.length →
        (processTreeItems env fuel owner repo maxDepth currentDepth items dirsSeen
          acc st).1.getD j dfltFile = acc.getD j dfltFile) ∧
      ((processTreeItems env fuel owner repo maxDepth currentDepth items dirsSeen
          acc st).1.filter (fun x => x.children.isSome)).length ≤
        (acc.filter (fun x => x.children.isSome)).length + (25 - dirsSeen) ∧
      (∀ j, j < items.length →
        ((¬ (items.getD j dfltFile).type = "dir" ∨ 25 ≤ dirsSeen + dirRank items j) →
          (processTreeItems env fuel owner repo maxDepth currentDepth items dirsSeen
            acc st).1.getD (acc.length + j) dfltFile = items.getD j dfltFile) ∧
        ((items.getD j dfltFile).type = "dir" → dirsSeen + dirRank items j < 25 →
          ∃ cs, (processTreeItems env fuel owner repo maxDepth currentDepth items
            dirsSeen acc st).1.getD (acc.length + j) dfltFile =
              (items.getD j dfltFile).withChildren (some cs))) := by
  intro items
  induction items with
  | nil =>
    intro dirsSeen acc st hnone
    refine ⟨by simp [processTreeItems], ?_, ?_, ?_⟩
    · intro j hj
      simp [processTreeItems]
    · simp [processTreeItems]
    · intro j hj
      simp at hj
  | cons item rest ih =>
    intro dirsSeen acc st hnone
    have hni : item.children = none := hnone item (List.mem_cons_self _ _)
    have hnr : ∀ x ∈ rest, x.children = none :=
      fun x hx => hnone x (List.mem_cons_of_mem _ hx)
    by_cases hdir : item.type = "dir"
    · by_cases hcap : dirsSeen < 25
      · -- expanded directory: the recursive call either succeeds or fails
        rcases hrec : buildFileTree env fuel owner repo item.path maxDepth
            (currentDepth + 1) 0 st with ⟨res, st1⟩
        have hx : ∃ x : FileContent, (∃ cs, x = item.withChildren (some cs)) ∧
            processTreeItems env fuel owner repo maxDepth currentDepth
              (item :: rest) dirsSeen acc st =
            processTreeItems env fuel owner repo maxDepth currentDepth rest
              (dirsSeen + 1) (acc ++ [x]) st1 := by
          cases res with
          | ok children =>
            refine ⟨item.withChildren (some children), ⟨children, rfl⟩, ?_⟩
            rw [processTreeItems]
            simp only [if_pos hdir, if_pos hcap, hrec]
          | error e =>
            refine ⟨item.withChildren (some []), ⟨[], rfl⟩, ?_⟩
            rw [processTreeItems]
            simp only [if_pos hdir, if_pos hcap, hrec]
        obtain ⟨x, ⟨cs0, hxeq⟩, heq⟩ := hx
        obtain ⟨ihlen, ihpre, ihcount, ihidx⟩ := ih (dirsSeen + 1) (acc ++ [x]) st1 hnr
        rw [heq]
        have hsome : x.children.isSome = true := by
          rw [hxeq]
          cases item
          rfl
        refine ⟨?_, ?_, ?_, ?_⟩
        · rw [ihlen]
          simp
          omega
        · intro j hj
          rw [ihpre j (by simp; omega)]
          rw [List.getD_append _ _ _ _ hj]
        · refine le_trans ihcount ?_
          rw [length_filter_append_single]
          rw [if_pos hsome]
          omega
        · intro j hj
          cases j with
          | zero =>
            constructor
            · intro hcond
              rcases hcond with hc | hc
              · exact absurd hdir (by simpa using hc)
              · rw [dirRank_zero] at hc
                omega
            · intro _ _
              refine ⟨cs0, ?_⟩
              have h3 := ihpre acc.length (by simp)
              erw [h3, getD_append_last]
              simpa using hxeq
          | succ j =>
            simp only [List.length_cons] at hj
            obtain ⟨hidx1, hidx2⟩ := ihidx j (by omega)
            have hrank : dirsSeen + dirRank (item :: rest) (j + 1) =
                (dirsSeen + 1) + dirRank rest j := by
              rw [dirRank_cons_succ, if_pos hdir]
              omega
            have hpos : acc.length + (j + 1) = (acc ++ [x]).length + j := by
              simp
              omega
            constructor
            · intro hcond
              rw [List.getD_cons_succ]
              rw [hpos]
              apply hidx1
              rcases hcond with hc | hc
              · left; simpa using hc
              · right; omega
            · intro hd hlt
              rw [List.getD_cons_succ] at hd ⊢
              rw [hpos]
              exact hidx2 hd (by omega)
      · -- a directory beyond the 25-directory cap: kept as a leaf entry
        have heq : processTreeItems env fuel owner repo maxDepth currentDepth
            (item :: rest) dirsSeen acc st =
            processTreeItems env fuel owner repo maxDepth currentDepth rest
              (dirsSeen + 1) (acc ++ [item]) st := by
          rw [processTreeItems]
          simp only [if_pos hdir, if_neg hcap]
        obtain ⟨ihlen, ihpre, ihcount, ihidx⟩ := ih (dirsSeen + 1) (acc ++ [item]) st hnr
        rw [heq]
        have hnotsome : item.children.isSome = false := by
          rw [hni]
          rfl
        refine ⟨?_, ?_, ?_, ?_⟩
        · rw [ihlen]; simp; omega
        · intro j hj
          rw [ihpre j (by simp; omega)]
          rw [List.getD_append _ _ _ _ hj]
        · refine le_trans ihcount ?_
          rw [length_filter_append_single, if_neg (by rw [hnotsome]; simp)]
          omega
        · intro j hj
          cases j with
          | zero =>
            constructor
            · intro _
              have h3 := ihpre acc.length (by simp)
              erw [h3, getD_append_last]
              rfl
            · intro _ hlt
              rw [dirRank_zero] at hlt
              omega
          | succ j =>
            simp only [List.length_cons] at hj
            obtain ⟨hidx1, hidx2⟩ := ihidx j (by omega)
            have hrank : dirsSeen + dirRank (item :: rest) (j + 1) =
                (dirsSeen + 1) + dirRank rest j := by
              rw [dirRank_cons_succ, if_pos hdir]
              omega
            have hpos : acc.length + (j + 1) = (acc ++ [item]).length + j := by
              simp; omega
            constructor
            · intro hcond
              rw [List.getD_cons_succ, hpos]
              apply hidx1
              rcases hcond with hc | hc
              · left; simpa using hc
              · right; omega
            · intro hd hlt
              rw [List.getD_cons_succ] at hd ⊢
              rw [hpos]
              exact hidx2 hd (by omega)
    · -- not a directory: kept unchanged, the directory budget is untouched
      have heq : processTreeItems env fuel owner repo maxDepth currentDepth
          (item :: rest) dirsSeen acc st =
          processTreeItems env fuel owner repo maxDepth currentDepth rest
            dirsSeen (acc ++ [item]) st := by
        rw [processTreeItems]
        simp only [if_neg hdir]
      obtain ⟨ihlen, ihpre, ihcount, ihidx⟩ := ih dirsSeen (acc ++ [item]) st hnr
      rw [heq]
      have hnotsome : item.children.isSome = false := by
        rw [hni]
        rfl
      refine ⟨?_, ?_, ?_, ?_⟩
      · rw [ihlen]; simp; omega
      · intro j hj
        rw [ihpre j (by simp; omega)]
        rw [List.getD_append _ _ _ _ hj]
      · refine le_trans ihcount ?_
        rw [length_filter_append_single, if_neg (by rw [hnotsome]; simp)]
        omega
      · intro j hj
        cases j with
        | zero =>
          constructor
          · intro _
            have h3 := ihpre acc.length (by simp)
            erw [h3, getD_append_last]
            rfl
          · intro hd _
            exact absurd hd hdir
        | succ j =>
          simp only [List.length_cons] at hj
          obtain ⟨hidx1, hidx2⟩ := ihidx j (by omega)
          have hrank : dirsSeen + dirRank (item :: rest) (j + 1) =
              dirsSeen + dirRank rest j := by
            rw [dirRank_cons_succ, if_neg hdir]
            omega
          have hpos : acc.length + (j + 1) = (acc ++ [item]).length + j := by
            simp; omega
          constructor
          · intro hcond
            rw [List.getD_cons_succ, hpos]
            apply hidx1
            rcases hcond with hc | hc
            · left; simpa using hc
            · right; omega
          · intro hd hlt
            rw [List.getD_cons_succ] at hd ⊢
            rw [hpos]
            exact hidx2 hd (by omega)

theorem getRepoContents_cold_dir (env : GitHubEnv) (owner repo path : String)
    (ms : Nat) (st : St) (items : List RawContentItem)
    (hkey : mapLookup ("repo-contents:" ++ owner ++ "/" ++ repo ++ ":" ++ path)
      st.contentCache.cache = none)
    (hskip : shouldSkipPath path = false)
    (hok : env.contentResp st.contentCalls = Except.ok (ContentData.dir items)) :
    getRepoContents env owner repo path ms 0 st =
      (Except.ok (items.map mapDirItem),
        { st with
            contentCalls := st.contentCalls + 1,
            contentCache := (({ st with contentCalls := st.contentCalls + 1 } :
              St).contentCache.set
              ("repo-contents:" ++ owner ++ "/" ++ repo ++ ":" ++ path)
              (CacheVal.files (items.map mapDirItem)) none st.now) }) := by
  rw [getRepoContents]
  simp only [ApiCache.get_of_lookup_none st.now hkey, Option.bind, hskip,
    Bool.false_eq_true, if_false, hok]

/-- C8: at a level of `buildFileTree` below the depth limit, at most 25
entries of the produced level carry a `children` field (at most 25 sibling
directories are expanded); every listed item reappears at its position —
a non-directory, or a directory beyond the 25-directory cap, exactly as
listed (a leaf entry, not descended into), and a directory within the cap
with `children := some _`; and a directory whose recursive fetch fails is
still pushed with an explicitly empty `children` list rather than being
omitted. -/
theorem tree_sibling_cap_and_inclusion (env : GitHubEnv) (f : Nat)
    (owner repo path : String) (maxDepth currentDepth : Nat) (st : St)
    (contents : List FileContent) (stc : St)
    (hkey : mapLookup ("file-tree:" ++ owner ++ "/" ++ repo ++ ":" ++ path ++ ":" ++
      toString maxDepth ++ ":" ++ toString currentDepth) st.contentCache.cache = none)
    (hdepth : ¬ currentDepth ≥ maxDepth)
    (hfetch : getRepoContents env owner repo path 1000 0 st = (Except.ok contents, stc))
    (hnone : ∀ x ∈ contents, x.children = none) :
    (∃ out st2, buildFileTree env (f + 1) owner repo path maxDepth currentDepth 0 st =
        (Except.ok out, st2) ∧
      out.length = contents.length ∧
      (out.filter (fun x => x.children.isSome)).length ≤ 25 ∧
      (∀ j, j < contents.length →
        (¬ (contents.getD j dfltFile).type = "dir" ∨ 25 ≤ dirRank contents j) →
        out.getD j dfltFile = contents.getD j dfltFile) ∧
      (∀ j, j < contents.length → (contents.getD j dfltFile).type = "dir" →
        dirRank contents j < 25 →
        ∃ cs, out.getD j dfltFile = (contents.getD j dfltFile).withChildren (some cs)))
    ∧ (∀ (item : FileContent) (rest : List FileContent) (dc : Nat)
        (acc : List FileContent) (st2 stE : St) (err : ApiError),
        item.type = "dir" → dc < 25 →
        buildFileTree env f owner repo item.path maxDepth (currentDepth + 1) 0 st2 =
          (Except.error err, stE) →
        processTreeItems env f owner repo maxDepth currentDepth (item :: rest) dc
            acc st2 =
          processTreeItems env f owner repo maxDepth currentDepth rest (dc + 1)
            (acc ++ [item.withChildren (some [])]) stE) := by
  constructor
  · rw [buildFileTree]
    simp only [ApiCache.get_of_lookup_none st.now hkey, Option.bind, hdepth,
      if_false, hfetch]
    obtain ⟨slen, spre, scount, sidx⟩ := processTreeItems_spec env f owner repo
      maxDepth currentDepth contents 0 [] stc hnone
    refine ⟨_, _, rfl, ?_, ?_, ?_, ?_⟩
    · simpa using slen
    · simpa using scount
    · intro j hj hcond
      have := (sidx j hj).1 (by simpa using hcond)
      simpa using this
    · intro j hj hd hr
      have := (sidx j hj).2 hd (by simpa using hr)
      simpa using this
  · intro item rest dc acc st2 stE err hdir hdc hrec
    rw [processTreeItems]
    simp only [if_pos hdir, if_pos hdc, hrec]

/-- A directory listing of 27 raw directories plus one file, fetched on a
fresh state with every deeper listing rejected (404). -/
def demoTreeItems : List RawContentItem :=
  (List.range 27).map (fun i =>
    ⟨"d" ++ toString i, "d" ++ toString i, "dir", 0, none⟩) ++
  [⟨"readme.md", "readme.md", "file", 10, none⟩]

def demoEnvTree : GitHubEnv :=
  { authenticated := true
    rateResp := fun _ => Except.ok ⟨5000, 4999, 0⟩
    repoResp := fun _ => Except.error ⟨404, "Not Found", false⟩
    contributorsResp := fun _ => Except.ok []
    statsResp := fun _ => StatsResp.pending
    commitsResp := fun _ => Except.ok []
    contentResp := fun n =>
      if n = 0 then Except.ok (ContentData.dir demoTreeItems)
      else Except.error ⟨404, "Not Found", false⟩ }

/-- Witness for C8 on a 27-directory level: at most 25 expanded, position
25 (the 26th directory) kept as a leaf, position 0 expanded with explicit
children. -/
theorem tree_sibling_cap_and_inclusion_witness :
    ∃ out st2, buildFileTree demoEnvTree 3 "octo" "demo" "" 2 0 0
        (initialSt 500000) = (Except.ok out, st2) ∧
      out.length = (demoTreeItems.map mapDirItem).length ∧
      (out.filter (fun x => x.children.isSome)).length ≤ 25 ∧
      out.getD 25 dfltFile = (demoTreeItems.map mapDirItem).getD 25 dfltFile ∧
      ∃ cs, out.getD 0 dfltFile =
        ((demoTreeItems.map mapDirItem).getD 0 dfltFile).withChildren (some cs) := by
  have h := tree_sibling_cap_and_inclusion demoEnvTree 2 "octo" "demo" "" 2 0
    (initialSt 500000) (demoTreeItems.map mapDirItem) _
    rfl (by decide)
    (getRepoContents_cold_dir demoEnvTree "octo" "demo" "" 1000 (initialSt 500000)
      demoTreeItems rfl (by decide) rfl)
    (by
      intro x hx
      simp only [List.mem_map] at hx
      obtain ⟨raw, hraw, hxeq⟩ := hx
      rw [← hxeq]
      rfl)
  obtain ⟨out, st2, hrun, hlen, hcount, hidx1, hidx2⟩ := h.1
  refine ⟨out, st2, hrun, hlen, hcount, ?_, ?_⟩
  · exact hidx1 25 (by decide) (by right; decide)
  · exact hidx2 0 (by decide) (by decide) (by decide)

/-! ## calculateMetrics (github.ts lines 895-953) -/

/-- The nested `activityTrend` object returned by `calculateMetrics`. -/
structure ActivityTrend where
  trend : String
  changePercent : Rat
deriving DecidableEq

/-- The record returned by `calculateMetrics`. JS number division is exact
real division on these inputs; the averages and `changePercent` are modelled
in `Rat`. -/
structure Metrics where
  averageCommitsPerWeek : Rat
  totalCommits : Nat
  mostActiveContributors : List Contributor
  activityTrend : ActivityTrend
deriving DecidableEq

/-- The contributor comparator `(a, b) => b.contributions - a.contributions`
(github.ts line 914) as the weak order used by a stable comparison sort:
`a` may stay before `b` exactly when the comparator is `<= 0`, i.e. when
`b.contributions <= a.contributions`. -/
def contribDesc (a b : Contributor) : Bool :=
  decide (b.contributions ≤ a.contributions)

/-- `calculateMetrics(commitActivity, contributors)` (github.ts lines
895-953). `[...contributors].sort(cmp)` is `Array.prototype.sort`, which is
required to be stable, modelled by the stable `List.mergeSort`;
`slice(-4)` / `slice(-8, -4)` become the corresponding drop/take
combinations, with `Nat` truncated subtraction matching `slice`'s clamping
of negative start indices. -/
def calculateMetrics (commitActivity : List CommitActivity)
    (contributors : List Contributor) : Metrics :=
  if commitActivity.length = 0 then
    { averageCommitsPerWeek := 0
      totalCommits := 0
      mostActiveContributors := []
      activityTrend := { trend := "stable", changePercent := 0 } }
  else
    let totalCommits : Nat := commitActivity.foldl (fun sum week => sum + week.total) 0
    let averageCommitsPerWeek : Rat := (totalCommits : Rat) / (commitActivity.length : Rat)
    let mostActiveContributors := (contributors.mergeSort contribDesc).take 5
    let recentWeeks := commitActivity.drop (commitActivity.length - 4)
    let olderWeeks := (commitActivity.drop (commitActivity.length - 8)).take
      ((commitActivity.length - 4) - (commitActivity.length - 8))
    let recentTotal : Nat := recentWeeks.foldl (fun sum week => sum + week.total) 0
    let olderTotal : Nat := olderWeeks.foldl (fun sum week => sum + week.total) 0
    let recentAvg : Rat :=
      if recentWeeks.length = 0 then 0
      else (recentTotal : Rat) / (recentWeeks.length : Rat)
    let olderAvg : Rat :=
      if olderWeeks.length = 0 then 0
      else (olderTotal : Rat) / (olderWeeks.length : Rat)
    let activityTrend : ActivityTrend :=
      if 0 < olderAvg then
        let changePercent := ((recentAvg - olderAvg) / olderAvg) * 100
        if 20 < changePercent then { trend := "increasing", changePercent := changePercent }
        else if changePercent < -20 then { trend := "decreasing", changePercent := changePercent }
        else { trend := "stable", changePercent := changePercent }
      else { trend := "stable", changePercent := 0 }
    { averageCommitsPerWeek := averageCommitsPerWeek
      totalCommits := totalCommits
      mostActiveContributors := mostActiveContributors
      activityTrend := activityTrend }

/-- A list sorted under a relation that is antisymmetric on its members is the
unique such reordering: two mutually permuted sorted lists are equal. -/
theorem pairwise_perm_eq {α : Type} {r : α → α → Prop} :
    ∀ {l₁ l₂ : List α}, List.Perm l₁ l₂ → l₁.Pairwise r → l₂.Pairwise r →
      (∀ a ∈ l₁, ∀ b ∈ l₂, r a b → r b a → a = b) → l₁ = l₂ := by
  intro l₁
  induction l₁ with
  | nil =>
    intro l₂ hp _ _ _
    exact (hp.symm.eq_nil).symm
  | cons a t ih =>
    intro l₂ hp h₁ h₂ hanti
    cases l₂ with
    | nil => exact absurd hp.eq_nil (by simp)
    | cons b t₂ =>
      have ha₂ : a ∈ b :: t₂ := hp.mem_iff.mp (List.mem_cons_self a t)
      have hab : a = b := by
        rcases List.mem_cons.mp ha₂ with h | ha'
        · exact h
        · have hba : r b a := (List.pairwise_cons.mp h₂).1 a ha'
          have hb₁ : b ∈ a :: t := hp.symm.mem_iff.mp (List.mem_cons_self b t₂)
          rcases List.mem_cons.mp hb₁ with h | hb'
          · exact h.symm
          · have hab' : r a b := (List.pairwise_cons.mp h₁).1 b hb'
            exact hanti a (List.mem_cons_self a t) b (List.mem_cons_self b t₂) hab' hba
      subst hab
      have hp' : List.Perm t t₂ := hp.cons_inv
      rw [ih hp' (List.pairwise_cons.mp h₁).2 (List.pairwise_cons.mp h₂).2
        (fun x hx y hy => hanti x (List.mem_cons_of_mem a hx) y (List.mem_cons_of_mem a hy))]

/-- Mutual `enumLE` forces equal indices. -/
theorem enumLE_fst_eq {α : Type} {le : α → α → Bool} {a b : Nat × α}
    (hab : List.enumLE le a b = true) (hba : List.enumLE le b a = true) :
    a.1 = b.1 := by
  simp only [List.enumLE] at hab hba
  by_cases h1 : le a.2 b.2 = true
  · by_cases h2 : le b.2 a.2 = true
    · simp only [h1, h2, if_true, decide_eq_true_eq] at hab hba
      omega
    · simp [h1, h2] at hba
  · simp [h1] at hab

/-- C9 counterexample: with an empty commit-activity list, `calculateMetrics`
returns `mostActiveContributors = []` no matter the contributors, while the
stable descending top five of that same contributors list is nonempty, so the
result is not the stable top five for every commit-activity list. -/
theorem metrics_empty_activity_drops_contributors :
    (calculateMetrics [] [⟨"ada", 1, "a", "u", 7⟩]).mostActiveContributors = [] ∧
      (([⟨"ada", 1, "a", "u", 7⟩] : List Contributor).mergeSort contribDesc).take 5 =
        [⟨"ada", 1, "a", "u", 7⟩] ∧
      ([] : List Contributor) ≠ [⟨"ada", 1, "a", "u", 7⟩] := by
  refine ⟨by decide, ?_, by decide⟩
  rw [List.mergeSort_singleton]
  rfl

/-- C9 (amended to nonempty commit activity): for `commitActivity ≠ []`,
`mostActiveContributors` is the first five contributors of the unique stable
reordering of `contributors` that is descending by contribution count: if `s`
is any permutation of the index-tagged contributors sorted by contributions
descending with ties broken by ascending original index (`List.enumLE
contribDesc`), then `mostActiveContributors` equals the first five entries of
`s` with the indices dropped. For an empty commit-activity list the function
instead early-returns an empty list, discarding the contributors. -/
theorem most_active_top5_stable (ca : List CommitActivity) (cs : List Contributor)
    (hca : ca ≠ []) (s : List (Nat × Contributor))
    (hperm : List.Perm s cs.enum)
    (hsort : s.Pairwise (fun a b => List.enumLE contribDesc a b = true)) :
    (calculateMetrics ca cs).mostActiveContributors = (s.map Prod.snd).take 5 := by
  have hlen : ¬ ca.length = 0 := fun h => hca (List.length_eq_zero.mp h)
  have hmost : (calculateMetrics ca cs).mostActiveContributors =
      (cs.mergeSort contribDesc).take 5 := by
    simp only [calculateMetrics, if_neg hlen]
  have htrans : ∀ a b c : Contributor,
      contribDesc a b → contribDesc b c → contribDesc a c := by
    intro a b c hab hbc
    simp only [contribDesc, decide_eq_true_eq] at hab hbc ⊢
    omega
  have htotal : ∀ a b : Contributor, contribDesc a b || contribDesc b a := by
    intro a b
    simp only [contribDesc]
    by_cases h : b.contributions ≤ a.contributions
    · simp [h]
    · simp [Nat.le_of_lt (Nat.lt_of_not_le h)]
  have hseq : s = (cs.enum).mergeSort (List.enumLE contribDesc) := by
    refine pairwise_perm_eq
      (hperm.trans (List.mergeSort_perm cs.enum (List.enumLE contribDesc)).symm)
      hsort
      (List.sorted_mergeSort (List.enumLE_trans htrans) (List.enumLE_total htotal) cs.enum)
      ?_
    intro a ha b hb hab hba
    have hfst := enumLE_fst_eq hab hba
    have ha' : a ∈ cs.enum := hperm.subset ha
    have hb' : b ∈ cs.enum := List.mem_mergeSort.mp hb
    exact nodup_keys_inj (by simp [List.nodup_range]) a ha' b hb' hfst
  rw [hmost, hseq, ← List.mergeSort_enum]

/-- Witness for `most_active_top5_stable` at a concrete input with a tie:
contributions 5, 9, 5 sort stably to the 9 first, then the two 5s in their
original order. -/
theorem most_active_top5_stable_witness :
    (calculateMetrics [⟨0, 3, [3, 0, 0, 0, 0, 0, 0]⟩]
        [⟨"ada", 1, "a", "u", 5⟩, ⟨"bob", 2, "b", "v", 9⟩,
          ⟨"cyd", 3, "c", "w", 5⟩]).mostActiveContributors =
      [⟨"bob", 2, "b", "v", 9⟩, ⟨"ada", 1, "a", "u", 5⟩, ⟨"cyd", 3, "c", "w", 5⟩] := by
  have h := most_active_top5_stable [⟨0, 3, [3, 0, 0, 0, 0, 0, 0]⟩]
    [⟨"ada", 1, "a", "u", 5⟩, ⟨"bob", 2, "b", "v", 9⟩, ⟨"cyd", 3, "c", "w", 5⟩]
    (by decide)
    [(1, ⟨"bob", 2, "b", "v", 9⟩), (0, ⟨"ada", 1, "a", "u", 5⟩),
      (2, ⟨"cyd", 3, "c", "w", 5⟩)]
    (by decide) (by decide)
  rw [h]
  rfl

/-! ## The getFileContent error channel (C10) -/

/-- One step of `getFileContent`: a rejected result is either the
RateLimited-exhaustion error itself or arose from the recursive retry call
(possible only while `retryCount < 2`). -/
theorem getFileContent_error_step (env : GitHubEnv) (owner repo path : String)
    (rc : Nat) (st : St) (e : ApiError)
    (he : (getFileContent env owner repo path rc st).1 = Except.error e) :
    e = ⟨0, rateLimitFileMessage env.authenticated, false⟩ ∨
    (∃ st', rc < 2 ∧
      (getFileContent env owner repo path (rc + 1) st').1 = Except.error e) := by
  rw [getFileContent] at he
  simp only [] at he
  split at he
  · simp at he
  · split at he
    · simp at he
    · split at he
      · simp at he
      · split at he
        · simp at he
        · split at he
          · simp at he
          · simp at he
      · split at he
        · split at he
          · split at he
            next hcond => exact Or.inr ⟨_, hcond.1, he⟩
            next hcond => exact Or.inl (Except.error.inj he).symm
          · exact Or.inl (Except.error.inj he).symm
        · split at he
          · simp at he
          · simp at he

/-- Rate-limit exhaustion of `getFileContent` with no retries left: the
rejected error is the RateLimited message. -/
theorem getFileContent_exhaust (env : GitHubEnv) (owner repo path : String)
    (rc : Nat) (st : St) (e : ApiError)
    (hrc : ¬ rc < 2)
    (hskip : shouldSkipPath path = false)
    (hkey : mapLookup ("file-content:" ++ owner ++ "/" ++ repo ++ ":" ++ path)
      st.contentCache.cache = none)
    (he : env.contentResp st.contentCalls = Except.error e)
    (herl : isRateLimitError e = true) :
    (getFileContent env owner repo path rc st).1 =
      Except.error ⟨0, rateLimitFileMessage env.authenticated, false⟩ := by
  rw [getFileContent]
  simp only [ApiCache.get_of_lookup_none st.now hkey, Option.bind, hskip,
    Bool.false_eq_true, if_false, he, herl]
  rw [if_pos trivial]
  split
  next rateLimit st2 heq =>
    rw [dif_neg (fun hc => hrc hc.1)]
  next e2 st2 heq => rfl

/-- C10: the typed failure channel of `getFileContent` carries only the
rate-limit-exhaustion error: any rejection, at any retry count and state,
is exactly the RateLimited message (recommending a token iff
unauthenticated). Every other failure mode resolves successfully with a
string beginning with `//`: a skip-listed path, a response that is a
directory listing, a file above the 2 MB limit, a not-found rejection, and
any other non-rate-limit provider error each return the corresponding
`//`-prefixed placeholder, so by type the caller cannot tell genuine
content from an error. -/
theorem file_content_error_channel (env : GitHubEnv) (owner repo path : String) :
    (∀ rc st e, (getFileContent env owner repo path rc st).1 = Except.error e →
      e = ⟨0, rateLimitFileMessage env.authenticated, false⟩) ∧
    (∀ st, mapLookup ("file-content:" ++ owner ++ "/" ++ repo ++ ":" ++ path)
        st.contentCache.cache = none →
      (shouldSkipPath path = true →
        (getFileContent env owner repo path 0 st).1 =
          Except.ok ("//" ++ (" File skipped: " ++ path ++
            " (likely binary or too large)"))) ∧
      (shouldSkipPath path = false →
        (∀ items, env.contentResp st.contentCalls = Except.ok (ContentData.dir items) →
          (getFileContent env owner repo path 0 st).1 =
            Except.ok ("//" ++
              " Error loading file content: Path points to a directory, not a file")) ∧
        (∀ f, env.contentResp st.contentCalls = Except.ok (ContentData.file f) →
          f.size > 2 * 1024 * 1024 →
          (getFileContent env owner repo path 0 st).1 =
            Except.ok ("//" ++ (" File too large to display: " ++ path ++ " (" ++
              formatSize f.size ++ "). Maximum size limit is 2MB."))) ∧
        (∀ e, env.contentResp st.contentCalls = Except.error e → e.status = 404 →
          (getFileContent env owner repo path 0 st).1 =
            Except.ok ("//" ++ (" File not found: " ++ path))) ∧
        (∀ e, env.contentResp st.contentCalls = Except.error e →
          isRateLimitError e = false → e.status ≠ 404 →
          (getFileContent env owner repo path 0 st).1 =
            Except.ok ("//" ++ (" Error loading file content: " ++
              (if e.message = "" then "Unknown error" else e.message)))))) := by
  constructor
  · have aux : ∀ (k rc : Nat) (st : St) (e : ApiError), 2 - rc ≤ k →
        (getFileContent env owner repo path rc st).1 = Except.error e →
        e = ⟨0, rateLimitFileMessage env.authenticated, false⟩ := by
      intro k
      induction k with
      | zero =>
        intro rc st e hk he
        rcases getFileContent_error_step env owner repo path rc st e he with
          h | ⟨st', hlt, he'⟩
        · exact h
        · exact absurd hlt (by omega)
      | succ k ih =>
        intro rc st e hk he
        rcases getFileContent_error_step env owner repo path rc st e he with
          h | ⟨st', hlt, he'⟩
        · exact h
        · exact ih (rc + 1) st' e (by omega) he'
    intro rc st e he
    exact aux (2 - rc) rc st e (Nat.le_refl _) he
  · intro st hkey
    constructor
    · intro hsk
      rw [getFileContent]
      simp only [ApiCache.get_of_lookup_none st.now hkey, Option.bind, hsk, if_true]
      rw [show ("// File skipped: " : String) = "//" ++ " File skipped: " from rfl]
      simp only [String.append_assoc]
    · intro hskip
      refine ⟨?_, ?_, ?_, ?_⟩
      · intro items hdir
        rw [getFileContent]
        simp only [ApiCache.get_of_lookup_none st.now hkey, Option.bind, hskip,
          Bool.false_eq_true, if_false, hdir]
        rfl
      · intro f hfile hbig
        rw [getFileContent]
        simp only [ApiCache.get_of_lookup_none st.now hkey, Option.bind, hskip,
          Bool.false_eq_true, if_false, hfile]
        rw [if_pos hbig]
        rw [show ("// File too large to display: " : String) =
          "//" ++ " File too large to display: " from rfl]
        simp only [String.append_assoc]
      · intro e he h404
        rw [getFileContent]
        simp only [ApiCache.get_of_lookup_none st.now hkey, Option.bind, hskip,
          Bool.false_eq_true, if_false, he, isRateLimitError_of_404 h404, h404, if_pos]
        rw [show ("// File not found: " : String) = "//" ++ " File not found: " from rfl]
        simp only [String.append_assoc]
      · intro e he herl h404
        rw [getFileContent]
        simp only [ApiCache.get_of_lookup_none st.now hkey, Option.bind, hskip,
          Bool.false_eq_true, if_false, he, herl]
        rw [if_neg h404]
        rw [show ("// Error loading file content: " : String) =
          "//" ++ " Error loading file content: " from rfl]
        simp only [String.append_assoc]

/-- Witness: under the everywhere rate-limited environment with no retries
left, the rejection carries exactly the RateLimited message; under the 404
environment, the call resolves with the `//`-prefixed not-found
placeholder. -/
theorem file_content_error_channel_witness :
    (⟨0, rateLimitFileMessage false, false⟩ : ApiError) =
      ⟨0, rateLimitFileMessage demoEnvAllRateLimited.authenticated, false⟩ ∧
    (getFileContent demoEnvNotFound "octo" "demo" "app.ts" 0 (initialSt 500000)).1 =
      Except.ok ("//" ++ (" File not found: " ++ "app.ts")) := by
  have h := file_content_error_channel demoEnvAllRateLimited "octo" "demo" "app.ts"
  have h2 := file_content_error_channel demoEnvNotFound "octo" "demo" "app.ts"
  refine ⟨?_, ?_⟩
  · exact h.1 2 (initialSt 500000) ⟨0, rateLimitFileMessage false, false⟩
      (getFileContent_exhaust demoEnvAllRateLimited "octo" "demo" "app.ts" 2
        (initialSt 500000) demoRateLimitedError (by omega) (by decide) rfl rfl (by decide))
  · exact ((h2.2 (initialSt 500000) rfl).2 (by decide)).2.2.1
      ⟨404, "Not Found", false⟩ rfl rfl

end GitTool
